import Mathlib

/-!
Verification of the filterlib signal-processing library (`filter_design.cpp`,
`biquad.h`, `utils.h`) against its natural-language specification.

The embedding is exact-rational: C++ `double` is idealised as `ℚ` (the
`std::complex<double>` values become pairs of rationals, `QC`), so every
arithmetic step of the code is mirrored without rounding.  The analog
prototype and the bilinear transform, whose values are genuinely
transcendental, are embedded over `ℂ`.  `size_t` arithmetic is modelled as
natural numbers reduced modulo `2 ^ 64` exactly where the C++ subtraction
of `std::vector::size()` values can wrap.
-/

set_option maxRecDepth 20000
set_option maxHeartbeats 1000000

/-! ## Definitions -/


/-! Shallow embedding of `filter_design` (filter_design.cpp) over exact rationals. -/

/-- Complex numbers with exact rational components, modelling `std::complex<double>`
in exact arithmetic. -/
structure QC where
  re : ℚ
  im : ℚ
deriving DecidableEq, Repr

instance : Add QC := ⟨fun a b => ⟨a.re + b.re, a.im + b.im⟩⟩

instance : Sub QC := ⟨fun a b => ⟨a.re - b.re, a.im - b.im⟩⟩

instance : Neg QC := ⟨fun a => ⟨-a.re, -a.im⟩⟩

instance : Mul QC := ⟨fun a b => ⟨a.re * b.re - a.im * b.im, a.re * b.im + a.im * b.re⟩⟩

/-- `std::conj`. -/
def conjQ (a : QC) : QC := ⟨a.re, -a.im⟩

/-- Squared magnitude `|a|^2` (`std::norm`).  The source compares magnitudes
(`std::abs`, a square root); in exact arithmetic `|a| < |b| ↔ |a|^2 < |b|^2`,
so all magnitude comparisons below are done on squares. -/
def absSq (a : QC) : ℚ := a.re ^ 2 + a.im ^ 2

/-- `100 * std::numeric_limits<double>::epsilon()`, with the double machine
epsilon `2^-52` taken exactly. -/
def tolQ : ℚ := 100 / 2 ^ 52

/-- `utils::is_real`: `|imag z| < 100 * epsilon`. -/
def is_real (z : QC) : Bool := decide (|z.im| < tolQ)

/-- The strict comparator used to sort in `cplxpair`:
`a.real() == b.real() ? a.imag() < b.imag() : a.real() < b.real()`. -/
def cplxLt (a b : QC) : Bool :=
  if a.re = b.re then decide (a.im < b.im) else decide (a.re < b.re)

/-- Insert into a list sorted by `cplxLt`.  `std::sort` is modelled by an
insertion sort: the comparator is a strict weak order whose equivalence
classes are singletons (equal values), so every correct sort produces the
same list. -/
def insertCplx (x : QC) : List QC → List QC
  | [] => [x]
  | y :: l => if cplxLt y x then y :: insertCplx x l else x :: y :: l

/-- The `std::sort(z.begin(), z.end(), complex_comparator)` call in `cplxpair`. -/
def sortCplx : List QC → List QC
  | [] => []
  | x :: l => insertCplx x (sortCplx l)

/-- Error outcomes of the embedded functions.  `invalidArg` models
`std::invalid_argument`, `logicErr` models `std::logic_error`, `outOfRange`
models `std::out_of_range` (from `vector::at`), `assertFail` models a failing
`assert` (a process abort when assertions are enabled), and `noCandidate`
models the undefined or unavailable result when a nearest-element search has
no admissible candidate. -/
inductive SosErr where
  | invalidArg
  | logicErr
  | outOfRange
  | assertFail
  | noCandidate
deriving DecidableEq, Repr

/-- Classification of a non-real element with positive imaginary part
(the `number.imag() > 0` branch of `cplxpair`). -/
def posIm (x : QC) : Bool := !is_real x && decide (0 < x.im)

/-- Classification of a non-real element with non-positive imaginary part
(the final `else` branch of `cplxpair`). -/
def negIm (x : QC) : Bool := !is_real x && !decide (0 < x.im)

/-- `filter_design::cplxpair`.  Sorts, partitions into reals
(`|imag| < tol`, stored as `number.real()`, i.e. with the imaginary part
zeroed), positive-imaginary and negative-imaginary elements; the single-pass
classification loop of the source is rendered as three filters over the
sorted list.  Fails when the positive/negative counts differ or when some
positive-imaginary element has no conjugate match within tolerance
(`|a - conj b| < tol`, compared here on squares). -/
def cplxpair (z : List QC) : Except SosErr (List QC × List QC) :=
  let s := sortCplx z
  let z_r := s.filterMap fun x => if is_real x then some (⟨x.re, 0⟩ : QC) else none
  let z_ip := s.filter posIm
  let z_in := s.filter negIm
  if z_ip.length ≠ z_in.length then .error .invalidArg
  else if z_ip.all (fun a => z_in.any fun b => decide (absSq (a - conjQ b) < tolQ ^ 2)) then
    .ok (z_r, z_ip)
  else .error .invalidArg

/-- The zero/pole record (`filter_design::zpk`), exact-rational version used
for the digital-domain functions. -/
structure zpkQ where
  zeros : List QC := []
  poles : List QC := []
  gain : ℚ := 1
deriving DecidableEq, Repr

/-- The biquad coefficient record produced by `zpk2tf` (the runtime state of
the C++ `biquad` class plays no role here). -/
structure biquad where
  b0 : ℚ
  b1 : ℚ
  b2 : ℚ
  a1 : ℚ
  a2 : ℚ
deriving DecidableEq, Repr

/-- `filter_design::zpk2tf`: expand one zero pair and one pole pair (elements
`at(0)`, `at(1)`; fewer elements raise `std::out_of_range`) into quadratic
coefficients, failing with `std::logic_error` when any coefficient has a
non-negligible imaginary part. -/
def zpk2tf (zpk_sos : zpkQ) : Except SosErr biquad :=
  match zpk_sos.poles.get? 0, zpk_sos.poles.get? 1,
        zpk_sos.zeros.get? 0, zpk_sos.zeros.get? 1 with
  | some p0, some p1, some z0, some z1 =>
    let a0 : QC := ⟨1, 0⟩
    let a1 : QC := -p0 - p1
    let a2 : QC := p0 * p1
    if is_real a0 && is_real a1 && is_real a2 then
      let g : QC := ⟨zpk_sos.gain, 0⟩
      let b0 : QC := g * ⟨1, 0⟩
      let b1 : QC := g * (-z0 - z1)
      let b2 : QC := g * (z0 * z1)
      if is_real b0 && is_real b1 && is_real b2 then
        .ok ⟨b0.re, b1.re, b2.re, a1.re, a2.re⟩
      else .error .logicErr
    else .error .logicErr
  | _, _, _, _ => .error .outOfRange

/-- One padding loop of `zpk2sos` (lines 453-460):
`for (int i = 0; i < other.size() - v.size(); i++) v.push_back(0);`.
The sizes are `size_t`, so the difference is taken modulo `2^64` and the
loop condition is re-evaluated against the grown vector on every iteration.
The index `i` is modelled as an unbounded natural (the C++ `int` would
overflow after `2^31` iterations; the behaviour proved about below never runs
the loop more than once).  The fuel `2^64` dominates the iteration count of
any terminating run of the C++ loop. -/
def padLoop (otherLen : ℕ) : ℕ → ℕ → List QC → List QC
  | 0, _, v => v
  | fuel + 1, i, v =>
    if i < (otherLen + 2 ^ 64 - v.length) % 2 ^ 64 then
      padLoop otherLen fuel (i + 1) (v ++ [⟨0, 0⟩])
    else v

/-- Remove and return the element minimising `d` (first occurrence on ties),
modelling `std::min_element` followed by `erase`. -/
def popMin (d : QC → ℚ) : List QC → Option (QC × List QC)
  | [] => none
  | x :: xs =>
    match popMin d xs with
    | none => some (x, [])
    | some (m, rest) =>
      if d m < d x then some (m, x :: rest) else some (x, xs)

/-- Helper for `pop_nearest_real_complex`: scan for the admissible element
(`is_real` matching `real`) nearest to `tgt` (first occurrence on ties) and
return it with the list it was removed from. -/
def popNearestGo (tgt : QC) (real : Bool) : List QC → Option (QC × List QC)
  | [] => none
  | x :: xs =>
    if is_real x = real then
      match popNearestGo tgt real xs with
      | none => some (x, xs)
      | some (m, rest) =>
        if absSq (m - tgt) < absSq (x - tgt) then some (m, x :: rest)
        else some (x, xs)
    else
      match popNearestGo tgt real xs with
      | none => none
      | some (m, rest) => some (m, x :: rest)

/-- Modelled from the spec: `utils::pop_nearest_real_complex` (declared in
utils.h; its definition, utils.cpp, is not among the sources) returns the
element of `fro` closest to `tgt` among those whose `is_real` test matches
`real`, and removes it from `fro`; no admissible element is an error
outcome. -/
def pop_nearest_real_complex (fro : List QC) (tgt : QC) (real : Bool) :
    Except SosErr (QC × List QC) :=
  match popNearestGo tgt real fro with
  | none => .error .noCandidate
  | some r => .ok r

/-- `std::find_if(poles.begin(), poles.end(), is_real)` followed by `erase`
(lines 564-568): remove and return the first real element. -/
def popFirstReal : List QC → Option (QC × List QC)
  | [] => none
  | x :: xs =>
    if is_real x then some (x, xs)
    else
      match popFirstReal xs with
      | none => none
      | some (m, rest) => some (m, x :: rest)

/-- Exact decision of `sqrt a + sqrt b < 2` for rationals `a b ≥ 0`:
squaring gives `2 sqrt (a b) < 4 - a - b`, which needs a positive right side
and then squares again. -/
def sqrtSumLt2 (a b : ℚ) : Bool :=
  decide (0 < 4 - a - b ∧ 4 * a * b < (4 - a - b) ^ 2)

/-- Exact decision of `2 < sqrt a + sqrt b` for rationals `a b ≥ 0`. -/
def sqrtSumGt2 (a b : ℚ) : Bool :=
  decide (4 - a - b < 0 ∨ (4 - a - b) ^ 2 < 4 * a * b)

/-- The pole-sorting comparator of `zpk2sos` (lines 487-488):
`|1 - |p1|| < |1 - |p2||`, decided exactly on the squared magnitudes
`a = |p1|^2`, `b = |p2|^2` via
`(1-sqrt a)^2 - (1-sqrt b)^2 = (sqrt a - sqrt b) * (sqrt a + sqrt b - 2)`:
for `a < b` the comparison holds iff `2 < sqrt a + sqrt b`, for `b < a` iff
`sqrt a + sqrt b < 2`, and never for `a = b`. -/
def poleLt (p1 p2 : QC) : Bool :=
  let a := absSq p1
  let b := absSq p2
  if a = b then false
  else if a < b then sqrtSumGt2 a b
  else sqrtSumLt2 a b

/-- Insertion step for the pole sort. -/
def insertPole (x : QC) : List QC → List QC
  | [] => [x]
  | y :: l => if poleLt y x then y :: insertPole x l else x :: y :: l

/-- The `sort(poles.begin(), poles.end(), ...)` call of `zpk2sos` (closest to
the unit circle first).  `std::sort`'s permutation on ties is unspecified;
insertion sort realises one admissible result, and no theorem below depends
on the order of tied poles. -/
def sortPoles : List QC → List QC
  | [] => []
  | x :: l => insertPole x (sortPoles l)

/-- The zero-selection part of one pairing iteration (lines 502-532), applied
after the front pole `p1` has been removed; `poles` is the list of remaining
poles.  Note the special-case test counts the remaining real POLES
(`poles_real`, line 512), not the remaining real zeros. -/
def selectZ1 (p1 : QC) (poles zeros : List QC) : Except SosErr (QC × List QC) :=
  if !is_real p1 && decide (poles.countP (fun x => is_real x) = 1) then
    pop_nearest_real_complex zeros p1 false
  else
    match popMin (fun z => absSq (p1 - z)) zeros with
    | none => .error .noCandidate
    | some r => .ok r

/-- One iteration of the pairing loop of `zpk2sos` (lines 492-577): take the
front pole, choose its partner zero, then complete the section with `p2`,
`z2`.  Returns the section's pole pair and zero pair together with the
remaining poles and zeros. -/
def sosStep (poles zeros : List QC) :
    Except SosErr ((QC × QC) × (QC × QC) × List QC × List QC) :=
  match poles with
  | [] => .error .noCandidate
  | p1 :: ps =>
    if is_real p1 && decide (ps.countP (fun x => is_real x) = 0) then
      match pop_nearest_real_complex zeros p1 true with
      | .error e => .error e
      | .ok (z1, zs) => .ok ((p1, ⟨0, 0⟩), (z1, ⟨0, 0⟩), ps, zs)
    else
      match selectZ1 p1 ps zeros with
      | .error e => .error e
      | .ok (z1, zs1) =>
        if !is_real p1 then
          if !is_real z1 then
            .ok ((p1, conjQ p1), (z1, conjQ z1), ps, zs1)
          else
            match pop_nearest_real_complex zs1 p1 true with
            | .error e => .error e
            | .ok (z2, zs2) => .ok ((p1, conjQ p1), (z1, z2), ps, zs2)
        else
          if !is_real z1 then
            match pop_nearest_real_complex ps z1 true with
            | .error e => .error e
            | .ok (p2, ps2) => .ok ((p1, p2), (z1, conjQ z1), ps2, zs1)
          else
            match popFirstReal ps with
            | none => .error .noCandidate
            | some (p2, ps2) =>
              match pop_nearest_real_complex zs1 p2 true with
              | .error e => .error e
              | .ok (z2, zs2) => .ok ((p1, p2), (z1, z2), ps2, zs2)

/-- The pairing loop (`for (int s = 0; s < n_sections; s++)`), returning the
formed pole pairs and zero pairs in formation order together with the
leftover poles and zeros. -/
def sosLoop : ℕ → List QC → List QC →
    Except SosErr (List (QC × QC) × List (QC × QC) × List QC × List QC)
  | 0, poles, zeros => .ok ([], [], poles, zeros)
  | k + 1, poles, zeros =>
    match sosStep poles zeros with
    | .error e => .error e
    | .ok (pp, zp, ps, zs) =>
      match sosLoop k ps zs with
      | .error e => .error e
      | .ok (psos, zsos, pl, zl) => .ok (pp :: psos, zp :: zsos, pl, zl)

/-- The `assert(poles.size() == 0 && zeros.size() == 0)` at line 578,
modelled as a distinguished assertion-failure outcome (with assertions
enabled the C++ process aborts; nothing is thrown). -/
def sosLeftoverCheck (poles zeros : List QC) : Except SosErr Unit :=
  if poles.length = 0 ∧ zeros.length = 0 then .ok () else .error .assertFail

/-- The emission loop of `zpk2sos` (lines 580-588):
`for (int s = n_sections - 1; s >= 0; s--)` converts section `s` via
`zpk2tf`, with gain `zpk.gain` when `s == n_sections - 1` and `1` otherwise.
The argument after the gain is the count of iterations still to run, so the
call with `r = nsec` emits `s = nsec - 1, ..., 0` in that order. -/
def emitDown (zsos psos : List (QC × QC)) (nsec : ℕ) (k : ℚ) :
    ℕ → Except SosErr (List biquad)
  | 0 => .ok []
  | r + 1 =>
    match zsos.get? r, psos.get? r with
    | some zp, some pp =>
      let gain : ℚ := if r = nsec - 1 then k else 1
      match zpk2tf ⟨[zp.1, zp.2], [pp.1, pp.2], gain⟩ with
      | .error e => .error e
      | .ok b =>
        match emitDown zsos psos nsec k r with
        | .error e => .error e
        | .ok rest => .ok (b :: rest)
    | _, _ => .error .outOfRange

/-- The canonicalise/sort/pair/emit stages of `zpk2sos` (lines 470-588),
applied to the padded pole and zero arrays: run `cplxpair` on both (keeping
reals first, then the positive-imaginary representatives), sort the poles by
distance to the unit circle, run the pairing loop, check that no pole or
zero is left (the `assert` at line 578), and emit the sections in reverse
formation order with the gain `k` attached at `s == n_sections - 1`. -/
def sosAssemble (nsec : ℕ) (poles2 zeros2 : List QC) (k : ℚ) :
    Except SosErr (List biquad) :=
  match cplxpair poles2 with
  | .error e => .error e
  | .ok (pr, pip) =>
    match cplxpair zeros2 with
    | .error e => .error e
    | .ok (zr, zip) =>
      match sosLoop nsec (sortPoles (pr ++ pip)) (zr ++ zip) with
      | .error e => .error e
      | .ok (psos, zsos, pleft, zleft) =>
        match sosLeftoverCheck pleft zleft with
        | .error e => .error e
        | .ok _ => emitDown zsos psos nsec k nsec

/-- `filter_design::zpk2sos`: pad counts (lines 453-460, with the `size_t`
wrap-around semantics of the source), assert count equality (line 461),
compute `n_sections`, force an even count (lines 464-468), and hand over to
the canonicalise/sort/pair/emit stages. -/
def zpk2sos (zpk : zpkQ) : Except SosErr (List biquad) :=
  let poles1 := padLoop zpk.zeros.length (2 ^ 64) 0 zpk.poles
  let zeros1 := padLoop poles1.length (2 ^ 64) 0 zpk.zeros
  if poles1.length = zeros1.length then
    let nsec := (zeros1.length + 1) / 2
    let poles2 := if zeros1.length % 2 = 1 then poles1 ++ [⟨0, 0⟩] else poles1
    let zeros2 := if zeros1.length % 2 = 1 then zeros1 ++ [⟨0, 0⟩] else zeros1
    sosAssemble nsec poles2 zeros2 zpk.gain
  else .error .assertFail

/-! ### The analog-domain functions, over Mathlib complex numbers -/

/-- The zero/pole record (`filter_design::zpk`) over `ℂ`, used for the
analog-domain functions (`exp` and `π` are not rational). -/
structure zpkC where
  zeros : List ℂ := []
  poles : List ℂ := []
  gain : ℝ := 1

/-- The pole-generating loop of `analog_lowpass`
(`for (int m = -filter_order + 1; m < filter_order; m += 2)`), with the
source's `PI` constant (a decimal approximation of `π`) idealised as `π`. -/
noncomputable def analogPolesFrom (filter_order : ℤ) (m : ℤ) : List ℂ :=
  if m < filter_order then
    -Complex.exp ⟨0, Real.pi * m / (2 * filter_order)⟩ ::
      analogPolesFrom filter_order (m + 2)
  else []
termination_by (filter_order - m).toNat
decreasing_by omega

/-- `filter_design::analog_lowpass`: the Butterworth prototype, a default
`zpk` record (no zeros, gain 1) whose poles are
`-exp(i * PI * m / (2 * filter_order))` for
`m = -filter_order + 1, -filter_order + 3, ...` while `m < filter_order`. -/
noncomputable def analog_lowpass (filter_order : ℤ) : zpkC :=
  { poles := analogPolesFrom filter_order (-filter_order + 1) }

/-- `filter_design::bilinear_transform`.  Each zero and pole `x` maps to
`(2 fs + x) / (2 fs - x)`; `degree = poles.size() - zeros.size()` (a
`size_t` difference converted to `int`, modelled as the integer difference;
a negative value runs the push loop zero times, hence `Int.toNat`) zeros are
appended at `-1`; the gain is rescaled by `Re(prod_z / prod_p)` where both
products *start from the complex value `(1,1)`* (lines 270, 275) and
multiply up `2 fs - x` over the zeros resp. poles. -/
noncomputable def bilinear_transform (zpk : zpkC) (sampling_frequency : ℝ) : zpkC :=
  let fs2 : ℂ := 2 * (sampling_frequency : ℂ)
  { zeros := zpk.zeros.map (fun z => (fs2 + z) / (fs2 - z)) ++
      List.replicate ((zpk.poles.length : ℤ) - zpk.zeros.length).toNat (-1)
    poles := zpk.poles.map fun p => (fs2 + p) / (fs2 - p)
    gain := zpk.gain *
      ((zpk.zeros.foldl (fun acc z => acc * (fs2 - z)) ⟨1, 1⟩) /
       (zpk.poles.foldl (fun acc p => acc * (fs2 - p)) ⟨1, 1⟩)).re }

/-! ### The pairing-loop invariant -/

/-- Weight of a remaining pole/zero list: a real entry stands for one root,
a non-real entry for a conjugate pair (after `cplxpair` only the
positive-imaginary representative of each pair is kept). -/
def Wt (l : List QC) : ℕ := l.length + l.countP fun x => !is_real x

/-- Invariant of the pairing loop with `k` sections still to form: both
lists carry `2 k` roots, the numbers of real entries are even, and every
real-classified entry has imaginary part exactly `0` (as produced by
`cplxpair` or by the zero-padding). -/
def LoopInv (k : ℕ) (poles zeros : List QC) : Prop :=
  Wt poles = 2 * k ∧ Wt zeros = 2 * k ∧
  2 ∣ poles.countP (fun x => is_real x) ∧ 2 ∣ zeros.countP (fun x => is_real x) ∧
  (∀ x ∈ poles, is_real x = true → x.im = 0) ∧
  (∀ x ∈ zeros, is_real x = true → x.im = 0)

/-- A formed pole or zero pair: either two exactly-real entries or an entry
together with its conjugate.  This is what makes `zpk2tf` produce real
coefficients. -/
def SecPair (pr : QC × QC) : Prop :=
  (pr.1.im = 0 ∧ pr.2.im = 0) ∨ pr.2 = conjQ pr.1

instance {ε α : Type} [DecidableEq ε] [DecidableEq α] : DecidableEq (Except ε α) :=
  fun x y =>
  match x, y with
  | .error e, .error f =>
    if h : e = f then .isTrue (by rw [h]) else .isFalse fun hh => h (Except.error.inj hh)
  | .ok a, .ok b =>
    if h : a = b then .isTrue (by rw [h]) else .isFalse fun hh => h (Except.ok.inj hh)
  | .error _, .ok _ => .isFalse Except.noConfusion
  | .ok _, .error _ => .isFalse Except.noConfusion

def zC6 : List QC := [⟨25/2^52, 1⟩, ⟨-25/2^52, 1⟩, ⟨0, -1⟩, ⟨10, -1⟩]

/-! ## Theorems -/

/-! ### Basic facts about the selection and sorting helpers -/

theorem tolQ_pos : 0 < tolQ := by norm_num [tolQ]

theorem popMin_eq_none {d : QC → ℚ} {l : List QC} :
    popMin d l = none ↔ l = [] := by
  cases l with
  | nil => simp [popMin]
  | cons x xs =>
    simp only [popMin]
    cases h : popMin d xs with
    | none => simp
    | some r => cases r with
      | mk m rest => by_cases hd : d m < d x <;> simp [hd]

theorem popMin_perm {d : QC → ℚ} :
    ∀ {l l' : List QC} {x : QC}, popMin d l = some (x, l') →
      List.Perm l (x :: l') := by
  intro l
  induction l with
  | nil => intro l' x h; simp [popMin] at h
  | cons a xs ih =>
    intro l' x h
    rw [popMin] at h
    cases hx : popMin d xs with
    | none =>
      simp only [hx, Option.some.injEq, Prod.mk.injEq] at h
      obtain ⟨rfl, rfl⟩ := h
      rw [popMin_eq_none.mp hx]
    | some r =>
      obtain ⟨m, rest⟩ := r
      simp only [hx] at h
      by_cases hd : d m < d a
      · simp only [if_pos hd, Option.some.injEq, Prod.mk.injEq] at h
        obtain ⟨rfl, rfl⟩ := h
        exact ((ih hx).cons a).trans (List.Perm.swap _ _ _)
      · simp only [if_neg hd, Option.some.injEq, Prod.mk.injEq] at h
        obtain ⟨rfl, rfl⟩ := h
        exact List.Perm.refl _

theorem popMin_isSome {d : QC → ℚ} {l : List QC} (h : l ≠ []) :
    ∃ x l', popMin d l = some (x, l') := by
  cases hx : popMin d l with
  | none => exact absurd (popMin_eq_none.mp hx) h
  | some r =>
    obtain ⟨x, l'⟩ := r
    exact ⟨x, l', rfl⟩

theorem popNearestGo_perm {tgt : QC} {b : Bool} :
    ∀ {l l' : List QC} {x : QC}, popNearestGo tgt b l = some (x, l') →
      List.Perm l (x :: l') ∧ is_real x = b := by
  intro l
  induction l with
  | nil => intro l' x h; simp [popNearestGo] at h
  | cons a xs ih =>
    intro l' x h
    rw [popNearestGo] at h
    by_cases ha : is_real a = b
    · simp only [if_pos ha] at h
      cases hx : popNearestGo tgt b xs with
      | none =>
        simp only [hx, Option.some.injEq, Prod.mk.injEq] at h
        obtain ⟨rfl, rfl⟩ := h
        exact ⟨List.Perm.refl _, ha⟩
      | some r =>
        obtain ⟨m, rest⟩ := r
        simp only [hx] at h
        by_cases hd : absSq (m - tgt) < absSq (a - tgt)
        · simp only [if_pos hd, Option.some.injEq, Prod.mk.injEq] at h
          obtain ⟨rfl, rfl⟩ := h
          obtain ⟨hperm, hreal⟩ := ih hx
          exact ⟨(hperm.cons a).trans (List.Perm.swap _ _ _), hreal⟩
        · simp only [if_neg hd, Option.some.injEq, Prod.mk.injEq] at h
          obtain ⟨rfl, rfl⟩ := h
          exact ⟨List.Perm.refl _, ha⟩
    · simp only [if_neg ha] at h
      cases hx : popNearestGo tgt b xs with
      | none => simp [hx] at h
      | some r =>
        obtain ⟨m, rest⟩ := r
        simp only [hx, Option.some.injEq, Prod.mk.injEq] at h
        obtain ⟨rfl, rfl⟩ := h
        obtain ⟨hperm, hreal⟩ := ih hx
        exact ⟨(hperm.cons a).trans (List.Perm.swap _ _ _), hreal⟩

theorem popNearestGo_isSome {tgt : QC} {b : Bool} :
    ∀ {l : List QC}, (∃ y ∈ l, is_real y = b) →
      ∃ x l', popNearestGo tgt b l = some (x, l') := by
  intro l
  induction l with
  | nil => rintro ⟨y, hy, -⟩; exact absurd hy (List.not_mem_nil y)
  | cons a xs ih =>
    rintro ⟨y, hy, hyb⟩
    rw [popNearestGo]
    by_cases ha : is_real a = b
    · rw [if_pos ha]
      cases hx : popNearestGo tgt b xs with
      | none => exact ⟨a, xs, rfl⟩
      | some r =>
        obtain ⟨m, rest⟩ := r
        by_cases hd : absSq (m - tgt) < absSq (a - tgt)
        · exact ⟨m, a :: rest, by simp [hd]⟩
        · exact ⟨a, xs, by simp [hd]⟩
    · rw [if_neg ha]
      rcases List.mem_cons.mp hy with rfl | hy'
      · exact absurd hyb ha
      · obtain ⟨x, l', hx⟩ := ih ⟨y, hy', hyb⟩
        exact ⟨x, a :: l', by rw [hx]⟩

theorem popFirstReal_perm :
    ∀ {l l' : List QC} {x : QC}, popFirstReal l = some (x, l') →
      List.Perm l (x :: l') ∧ is_real x = true := by
  intro l
  induction l with
  | nil => intro l' x h; simp [popFirstReal] at h
  | cons a xs ih =>
    intro l' x h
    rw [popFirstReal] at h
    by_cases ha : is_real a
    · simp only [if_pos ha, Option.some.injEq, Prod.mk.injEq] at h
      obtain ⟨rfl, rfl⟩ := h
      exact ⟨List.Perm.refl _, ha⟩
    · simp only [if_neg ha] at h
      cases hx : popFirstReal xs with
      | none => simp [hx] at h
      | some r =>
        obtain ⟨m, rest⟩ := r
        simp only [hx, Option.some.injEq, Prod.mk.injEq] at h
        obtain ⟨rfl, rfl⟩ := h
        obtain ⟨hperm, hreal⟩ := ih hx
        exact ⟨(hperm.cons a).trans (List.Perm.swap _ _ _), hreal⟩

theorem popFirstReal_isSome :
    ∀ {l : List QC}, (∃ y ∈ l, is_real y = true) →
      ∃ x l', popFirstReal l = some (x, l') := by
  intro l
  induction l with
  | nil => rintro ⟨y, hy, -⟩; exact absurd hy (List.not_mem_nil y)
  | cons a xs ih =>
    rintro ⟨y, hy, hyb⟩
    rw [popFirstReal]
    by_cases ha : is_real a
    · exact ⟨a, xs, by rw [if_pos ha]⟩
    · rw [if_neg ha]
      rcases List.mem_cons.mp hy with rfl | hy'
      · exact absurd hyb ha
      · obtain ⟨x, l', hx⟩ := ih ⟨y, hy', hyb⟩
        exact ⟨x, a :: l', by rw [hx]⟩

theorem insertCplx_perm (x : QC) : ∀ l : List QC,
    List.Perm (insertCplx x l) (x :: l)
  | [] => List.Perm.refl _
  | y :: l => by
    rw [insertCplx]
    by_cases h : cplxLt y x
    · rw [if_pos h]
      exact ((insertCplx_perm x l).cons y).trans (List.Perm.swap _ _ _)
    · rw [if_neg h]

theorem sortCplx_perm : ∀ l : List QC, List.Perm (sortCplx l) l
  | [] => List.Perm.refl _
  | x :: l => (insertCplx_perm x (sortCplx l)).trans ((sortCplx_perm l).cons x)

theorem insertPole_perm (x : QC) : ∀ l : List QC,
    List.Perm (insertPole x l) (x :: l)
  | [] => List.Perm.refl _
  | y :: l => by
    rw [insertPole]
    by_cases h : poleLt y x
    · rw [if_pos h]
      exact ((insertPole_perm x l).cons y).trans (List.Perm.swap _ _ _)
    · rw [if_neg h]

theorem sortPoles_perm : ∀ l : List QC, List.Perm (sortPoles l) l
  | [] => List.Perm.refl _
  | x :: l => (insertPole_perm x (sortPoles l)).trans ((sortPoles_perm l).cons x)

/-! ### Characterisation of `cplxpair` -/

theorem filterMap_if_eq_map_filter (c : QC → Bool) (f : QC → QC) :
    ∀ l : List QC,
      (l.filterMap fun x => if c x then some (f x) else none) =
        (l.filter c).map f
  | [] => rfl
  | a :: l => by
    by_cases h : c a <;>
      simp [List.filterMap_cons, List.filter_cons, h,
        filterMap_if_eq_map_filter c f l]

theorem countP_classify (l : List QC) :
    l.countP is_real + l.countP posIm + l.countP negIm = l.length := by
  induction l with
  | nil => rfl
  | cons a l ih =>
    simp only [List.countP_cons, List.length_cons]
    by_cases hr : is_real a <;> by_cases hp : decide (0 < a.im) <;>
      simp [posIm, negIm, hr, hp] <;> omega

/-- The three mutually exclusive outcomes of the classification. -/
theorem classify_cases (x : QC) :
    (is_real x = true ∧ posIm x = false ∧ negIm x = false) ∨
    (is_real x = false ∧ posIm x = true ∧ negIm x = false) ∨
    (is_real x = false ∧ posIm x = false ∧ negIm x = true) := by
  by_cases hr : is_real x <;> by_cases hp : decide (0 < x.im) <;>
    simp [posIm, negIm, hr, hp]

theorem cplxpair_ok_inv {z r ip} (h : cplxpair z = .ok (r, ip)) :
    r = ((sortCplx z).filter is_real).map (fun x => (⟨x.re, 0⟩ : QC)) ∧
    ip = (sortCplx z).filter posIm ∧
    ip.length = ((sortCplx z).filter negIm).length ∧
    ip.all (fun a => ((sortCplx z).filter negIm).any fun b =>
      decide (absSq (a - conjQ b) < tolQ ^ 2)) = true := by
  rw [cplxpair] at h
  split_ifs at h with h1 h2
  all_goals try (exact Except.noConfusion h)
  simp only [Except.ok.injEq, Prod.mk.injEq] at h
  obtain ⟨hr, hip⟩ := h
  subst hr
  subst hip
  exact ⟨filterMap_if_eq_map_filter _ _ _, rfl, not_ne_iff.mp h1, h2⟩

theorem cplxpair_mem_r {z r ip} (h : cplxpair z = .ok (r, ip)) :
    ∀ w ∈ r, ∃ x ∈ z, is_real x = true ∧ w = ⟨x.re, 0⟩ := by
  obtain ⟨hr, -, -, -⟩ := cplxpair_ok_inv h
  subst hr
  intro w hw
  obtain ⟨x, hx, rfl⟩ := List.mem_map.mp hw
  obtain ⟨hxs, hxr⟩ := List.mem_filter.mp hx
  exact ⟨x, (sortCplx_perm z).mem_iff.mp hxs, hxr, rfl⟩

theorem cplxpair_mem_ip {z r ip} (h : cplxpair z = .ok (r, ip)) :
    ∀ a ∈ ip, a ∈ z ∧ posIm a = true := by
  obtain ⟨-, hip, -, -⟩ := cplxpair_ok_inv h
  subst hip
  intro a ha
  obtain ⟨has, hap⟩ := List.mem_filter.mp ha
  exact ⟨(sortCplx_perm z).mem_iff.mp has, hap⟩

theorem cplxpair_ip_matched {z r ip} (h : cplxpair z = .ok (r, ip)) :
    ∀ a ∈ ip, ∃ b ∈ z, negIm b = true ∧ absSq (a - conjQ b) < tolQ ^ 2 := by
  obtain ⟨-, -, -, hall⟩ := cplxpair_ok_inv h
  intro a ha
  obtain ⟨-, hip, -, -⟩ := cplxpair_ok_inv h
  have ha' : a ∈ (sortCplx z).filter posIm := hip ▸ ha
  have := List.all_eq_true.mp hall a (hip ▸ ha)
  obtain ⟨b, hb, hclose⟩ := List.any_eq_true.mp this
  obtain ⟨hbs, hbn⟩ := List.mem_filter.mp hb
  exact ⟨b, (sortCplx_perm z).mem_iff.mp hbs, hbn, of_decide_eq_true hclose⟩

theorem cplxpair_length {z r ip} (h : cplxpair z = .ok (r, ip)) :
    r.length + 2 * ip.length = z.length := by
  obtain ⟨hr, hip, hlen, -⟩ := cplxpair_ok_inv h
  subst hr
  subst hip
  have hperm := sortCplx_perm z
  have h1 : (List.filter is_real (sortCplx z)).length = (sortCplx z).countP is_real :=
    (List.countP_eq_length_filter _ _).symm
  have h2 : (List.filter posIm (sortCplx z)).length = (sortCplx z).countP posIm :=
    (List.countP_eq_length_filter _ _).symm
  have h3 : (List.filter negIm (sortCplx z)).length = (sortCplx z).countP negIm :=
    (List.countP_eq_length_filter _ _).symm
  have hc := countP_classify (sortCplx z)
  rw [List.length_map, h1]
  rw [h2, h3] at hlen
  rw [hperm.length_eq] at hc
  omega

theorem cplxpair_error_iff (z : List QC) :
    cplxpair z = .error .invalidArg ↔
      (z.countP posIm ≠ z.countP negIm ∨
        ∃ a ∈ z, posIm a = true ∧ ∀ b ∈ z, negIm b = true →
          ¬(absSq (a - conjQ b) < tolQ ^ 2)) := by
  have hperm := sortCplx_perm z
  have h2 : (List.filter posIm (sortCplx z)).length = z.countP posIm := by
    rw [← List.countP_eq_length_filter, hperm.countP_eq]
  have h3 : (List.filter negIm (sortCplx z)).length = z.countP negIm := by
    rw [← List.countP_eq_length_filter, hperm.countP_eq]
  rw [cplxpair]
  split_ifs with h1 hall
  · simp only [true_iff, eq_self_iff_true]
    exact Or.inl (by rw [← h2, ← h3]; exact h1)
  · constructor
    · intro h; exact absurd h (by simp)
    · rintro (hne | ⟨a, ha, hap, hbad⟩)
      · exact absurd (by rw [← h2, ← h3] at hne; exact hne) h1
      · have ha' : a ∈ (sortCplx z).filter posIm :=
          List.mem_filter.mpr ⟨hperm.mem_iff.mpr ha, hap⟩
        have := List.all_eq_true.mp hall a ha'
        obtain ⟨b, hb, hclose⟩ := List.any_eq_true.mp this
        obtain ⟨hbs, hbn⟩ := List.mem_filter.mp hb
        exact absurd (of_decide_eq_true hclose)
          (hbad b (hperm.mem_iff.mp hbs) hbn)
  · simp only [true_iff, eq_self_iff_true]
    refine Or.inr ?_
    rw [List.all_eq_true] at hall
    push_neg at hall
    obtain ⟨a, ha, hbad⟩ := hall
    obtain ⟨has, hap⟩ := List.mem_filter.mp ha
    refine ⟨a, hperm.mem_iff.mp has, hap, fun b hb hbn hclose => ?_⟩
    have hb' : b ∈ (sortCplx z).filter negIm :=
      List.mem_filter.mpr ⟨hperm.mem_iff.mpr hb, hbn⟩
    exact hbad (List.any_eq_true.mpr ⟨b, hb', decide_eq_true hclose⟩)

theorem cplxpair_no_other_error (z : List QC) (e : SosErr)
    (h : cplxpair z = .error e) : e = .invalidArg := by
  rw [cplxpair] at h
  split_ifs at h <;> simp_all

/-! ### The padding loops -/

theorem padLoop_spec (o : ℕ) : ∀ (fuel i : ℕ) (v : List QC),
    (o + 2 ^ 64 - v.length) % 2 ^ 64 ≤ 2 * fuel + i →
    padLoop o fuel i v =
      v ++ List.replicate (((o + 2 ^ 64 - v.length) % 2 ^ 64 - i + 1) / 2) ⟨0, 0⟩ := by
  intro fuel
  induction fuel with
  | zero =>
    intro i v hfuel
    rw [padLoop]
    have : (o + 2 ^ 64 - v.length) % 2 ^ 64 - i + 1 = 1 := by omega
    rw [this]
    norm_num
  | succ fuel ih =>
    intro i v hfuel
    rw [padLoop]
    by_cases hc : i < (o + 2 ^ 64 - v.length) % 2 ^ 64
    · rw [if_pos hc]
      have hlen : (v ++ [(⟨0, 0⟩ : QC)]).length = v.length + 1 := by simp
      have hg : (o + 2 ^ 64 - (v.length + 1)) % 2 ^ 64 =
          (o + 2 ^ 64 - v.length) % 2 ^ 64 - 1 := by omega
      have := ih (i + 1) (v ++ [⟨0, 0⟩]) (by rw [hlen, hg]; omega)
      rw [this, hlen, hg, List.append_assoc]
      congr 1
      have hrep : ((o + 2 ^ 64 - v.length) % 2 ^ 64 - i + 1) / 2 =
          ((o + 2 ^ 64 - v.length) % 2 ^ 64 - 1 - (i + 1) + 1) / 2 + 1 := by omega
      rw [hrep, List.replicate_succ]
      rfl
    · rw [if_neg hc]
      have : (o + 2 ^ 64 - v.length) % 2 ^ 64 - i + 1 = 1 := by omega
      rw [this]
      norm_num

theorem padLoop_no_pad (o fuel : ℕ) (v : List QC) (h : v.length = o) :
    padLoop o fuel 0 v = v := by
  have hg : (o + 2 ^ 64 - v.length) % 2 ^ 64 = 0 := by omega
  have := padLoop_spec o fuel 0 v (by omega)
  rw [hg] at this
  simpa using this

theorem padLoop_one_pad (o fuel : ℕ) (v : List QC) (h : v.length + 1 = o)
    (hfuel : 1 ≤ fuel) : padLoop o fuel 0 v = v ++ [⟨0, 0⟩] := by
  have hg : (o + 2 ^ 64 - v.length) % 2 ^ 64 = 1 := by omega
  have := padLoop_spec o fuel 0 v (by omega)
  rw [hg] at this
  simpa using this

theorem Wt_perm {l l' : List QC} (h : List.Perm l l') : Wt l = Wt l' := by
  unfold Wt
  rw [h.length_eq, h.countP_eq]

theorem Wt_cons (x : QC) (l : List QC) :
    Wt (x :: l) = Wt l + (if is_real x then 1 else 2) := by
  unfold Wt
  rw [List.countP_cons, List.length_cons]
  by_cases h : is_real x <;> simp [h] <;> omega

theorem Wt_nil : Wt [] = 0 := rfl

theorem length_pos_of_Wt {l : List QC} {n : ℕ} (h : Wt l = n) (hn : 0 < n) :
    l ≠ [] := by
  intro hl
  subst hl
  rw [Wt_nil] at h
  omega

theorem sosStep_inv {k : ℕ} {poles zeros : List QC} (h : LoopInv (k + 1) poles zeros) :
    ∃ pp zp ps' zs', sosStep poles zeros = .ok (pp, zp, ps', zs') ∧
      LoopInv k ps' zs' ∧ SecPair pp ∧ SecPair zp := by
  obtain ⟨hWp, hWz, hEp, hEz, hMp, hMz⟩ := h
  cases poles with
  | nil => rw [Wt_nil] at hWp; omega
  | cons p1 ps =>
    have hzne : zeros ≠ [] := length_pos_of_Wt hWz (by omega)
    obtain ⟨z1, zs1, hpopz⟩ := @popMin_isSome (fun z => absSq (p1 - z)) _ hzne
    have hpermz : List.Perm zeros (z1 :: zs1) := popMin_perm hpopz
    have hcntp : List.countP (fun x => is_real x) (p1 :: ps) =
        List.countP (fun x => is_real x) ps + (if is_real p1 then 1 else 0) := by
      rw [List.countP_cons]
    have hWpc : Wt (p1 :: ps) = Wt ps + (if is_real p1 then 1 else 2) := Wt_cons p1 ps
    have hWzc : Wt zeros = Wt zs1 + (if is_real z1 then 1 else 2) := by
      rw [Wt_perm hpermz, Wt_cons]
    have hcntz : List.countP (fun x => is_real x) zeros =
        List.countP (fun x => is_real x) zs1 + (if is_real z1 then 1 else 0) := by
      rw [hpermz.countP_eq, List.countP_cons]
    by_cases hp1 : is_real p1
    · -- real front pole; the remaining real-pole count is odd, so neither
      -- special branch fires
      rw [hp1, if_pos rfl] at hcntp hWpc
      have hodd : List.countP (fun x => is_real x) ps % 2 = 1 := by omega
      have hne0 : ¬ List.countP (fun x => is_real x) ps = 0 := by omega
      have hdec0 : decide (List.countP (fun x => is_real x) ps = 0) = false :=
        decide_eq_false hne0
      have hsel : selectZ1 p1 ps zeros = .ok (z1, zs1) := by
        simp [selectZ1, hp1, hpopz]
      have hpos : 0 < List.countP (fun x => is_real x) ps := by omega
      obtain ⟨y, hy, hyr⟩ := List.countP_pos.mp hpos
      by_cases hz1 : is_real z1
      · -- real pole, real zero
        rw [hz1, if_pos rfl] at hcntz hWzc
        obtain ⟨p2, ps2, hpfr⟩ := popFirstReal_isSome ⟨y, hy, hyr⟩
        obtain ⟨hpermp2, hp2r⟩ := popFirstReal_perm hpfr
        have hcntp2 : List.countP (fun x => is_real x) ps =
            List.countP (fun x => is_real x) ps2 + 1 := by
          rw [hpermp2.countP_eq, List.countP_cons, hp2r]
          simp
        have hWp2 : Wt ps = Wt ps2 + 1 := by
          rw [Wt_perm hpermp2, Wt_cons, if_pos hp2r]
        have hzodd : 0 < List.countP (fun x => is_real x) zs1 := by omega
        obtain ⟨y2, hy2, hy2r⟩ := List.countP_pos.mp hzodd
        obtain ⟨z2, zs2, hpz2⟩ := @popNearestGo_isSome p2 _ _ ⟨y2, hy2, hy2r⟩
        obtain ⟨hpermz2, hz2r⟩ := popNearestGo_perm hpz2
        have hcntz2 : List.countP (fun x => is_real x) zs1 =
            List.countP (fun x => is_real x) zs2 + 1 := by
          rw [hpermz2.countP_eq, List.countP_cons, hz2r]
          simp
        have hWz2 : Wt zs1 = Wt zs2 + 1 := by
          rw [Wt_perm hpermz2, Wt_cons, if_pos hz2r]
        refine ⟨(p1, p2), (z1, z2), ps2, zs2, ?_, ?_, ?_, ?_⟩
        · simp only [sosStep, hp1, hdec0, Bool.true_and, Bool.false_eq_true, reduceIte,
            hsel, hz1, Bool.not_true, hpfr, pop_nearest_real_complex, hpz2]
        · refine ⟨by omega, by omega, by omega, by omega, ?_, ?_⟩
          · intro x hx hxr
            exact hMp x (List.mem_cons_of_mem p1 (hpermp2.mem_iff.mpr
              (List.mem_cons_of_mem p2 hx))) hxr
          · intro x hx hxr
            exact hMz x (hpermz.mem_iff.mpr (List.mem_cons_of_mem z1
              (hpermz2.mem_iff.mpr (List.mem_cons_of_mem z2 hx)))) hxr
        · exact Or.inl ⟨hMp p1 (List.mem_cons_self p1 ps) hp1,
            hMp p2 (List.mem_cons_of_mem p1 (hpermp2.mem_iff.mpr
              (List.mem_cons_self p2 ps2))) hp2r⟩
        · exact Or.inl ⟨hMz z1 (hpermz.mem_iff.mpr (List.mem_cons_self z1 zs1)) hz1,
            hMz z2 (hpermz.mem_iff.mpr (List.mem_cons_of_mem z1
              (hpermz2.mem_iff.mpr (List.mem_cons_self z2 zs2)))) hz2r⟩
      · -- real pole, complex zero: conjugate the zero, pop the real pole
        -- nearest to it
        rw [Bool.not_eq_true] at hz1
        simp only [hz1, Bool.false_eq_true, reduceIte] at hcntz hWzc
        obtain ⟨p2, ps2, hpp2⟩ := @popNearestGo_isSome z1 _ _ ⟨y, hy, hyr⟩
        obtain ⟨hpermp2, hp2r⟩ := popNearestGo_perm hpp2
        have hcntp2 : List.countP (fun x => is_real x) ps =
            List.countP (fun x => is_real x) ps2 + 1 := by
          rw [hpermp2.countP_eq, List.countP_cons, hp2r]
          simp
        have hWp2 : Wt ps = Wt ps2 + 1 := by
          rw [Wt_perm hpermp2, Wt_cons, if_pos hp2r]
        refine ⟨(p1, p2), (z1, conjQ z1), ps2, zs1, ?_, ?_, ?_, ?_⟩
        · simp only [sosStep, hp1, hdec0, Bool.true_and, Bool.false_eq_true, reduceIte,
            hsel, hz1, Bool.not_true, Bool.not_false, pop_nearest_real_complex, hpp2]
        · refine ⟨by omega, by omega, by omega, by omega, ?_, ?_⟩
          · intro x hx hxr
            exact hMp x (List.mem_cons_of_mem p1 (hpermp2.mem_iff.mpr
              (List.mem_cons_of_mem p2 hx))) hxr
          · intro x hx hxr
            exact hMz x (hpermz.mem_iff.mpr (List.mem_cons_of_mem z1 hx)) hxr
        · exact Or.inl ⟨hMp p1 (List.mem_cons_self p1 ps) hp1,
            hMp p2 (List.mem_cons_of_mem p1 (hpermp2.mem_iff.mpr
              (List.mem_cons_self p2 ps2))) hp2r⟩
        · exact Or.inr rfl
    · -- complex front pole; the remaining real-pole count is even, so the
      -- lone-real-pole special branch cannot fire
      rw [Bool.not_eq_true] at hp1
      simp only [hp1, Bool.false_eq_true, reduceIte] at hcntp hWpc
      have heven : List.countP (fun x => is_real x) ps % 2 = 0 := by omega
      have hne1 : ¬ List.countP (fun x => is_real x) ps = 1 := by omega
      have hsel : selectZ1 p1 ps zeros = .ok (z1, zs1) := by
        simp [selectZ1, hp1, hne1, hpopz]
      by_cases hz1 : is_real z1
      · -- complex pole, real zero: conjugate pole, pop another real zero
        rw [hz1, if_pos rfl] at hcntz hWzc
        have hzodd : 0 < List.countP (fun x => is_real x) zs1 := by omega
        obtain ⟨y2, hy2, hy2r⟩ := List.countP_pos.mp hzodd
        obtain ⟨z2, zs2, hpz2⟩ := @popNearestGo_isSome p1 _ _ ⟨y2, hy2, hy2r⟩
        obtain ⟨hpermz2, hz2r⟩ := popNearestGo_perm hpz2
        have hcntz2 : List.countP (fun x => is_real x) zs1 =
            List.countP (fun x => is_real x) zs2 + 1 := by
          rw [hpermz2.countP_eq, List.countP_cons, hz2r]
          simp
        have hWz2 : Wt zs1 = Wt zs2 + 1 := by
          rw [Wt_perm hpermz2, Wt_cons, if_pos hz2r]
        refine ⟨(p1, conjQ p1), (z1, z2), ps, zs2, ?_, ?_, ?_, ?_⟩
        · simp only [sosStep, hp1, Bool.false_and, Bool.false_eq_true, reduceIte,
            hsel, hz1, Bool.not_true, Bool.not_false, pop_nearest_real_complex, hpz2]
        · refine ⟨by omega, by omega, by omega, by omega, ?_, ?_⟩
          · intro x hx hxr
            exact hMp x (List.mem_cons_of_mem p1 hx) hxr
          · intro x hx hxr
            exact hMz x (hpermz.mem_iff.mpr (List.mem_cons_of_mem z1
              (hpermz2.mem_iff.mpr (List.mem_cons_of_mem z2 hx)))) hxr
        · exact Or.inr rfl
        · exact Or.inl ⟨hMz z1 (hpermz.mem_iff.mpr (List.mem_cons_self z1 zs1)) hz1,
            hMz z2 (hpermz.mem_iff.mpr (List.mem_cons_of_mem z1
              (hpermz2.mem_iff.mpr (List.mem_cons_self z2 zs2)))) hz2r⟩
      · -- complex pole, complex zero: conjugate both
        rw [Bool.not_eq_true] at hz1
        simp only [hz1, Bool.false_eq_true, reduceIte] at hcntz hWzc
        refine ⟨(p1, conjQ p1), (z1, conjQ z1), ps, zs1, ?_, ?_, ?_, ?_⟩
        · simp only [sosStep, hp1, Bool.false_and, Bool.false_eq_true, reduceIte,
            hsel, hz1, Bool.not_false]
        · refine ⟨by omega, by omega, by omega, by omega, ?_, ?_⟩
          · intro x hx hxr
            exact hMp x (List.mem_cons_of_mem p1 hx) hxr
          · intro x hx hxr
            exact hMz x (hpermz.mem_iff.mpr (List.mem_cons_of_mem z1 hx)) hxr
        · exact Or.inr rfl
        · exact Or.inr rfl

theorem sosLoop_inv : ∀ (k : ℕ) {poles zeros : List QC}, LoopInv k poles zeros →
    ∃ psos zsos, sosLoop k poles zeros = .ok (psos, zsos, [], []) ∧
      psos.length = k ∧ zsos.length = k ∧
      (∀ pp ∈ psos, SecPair pp) ∧ (∀ zp ∈ zsos, SecPair zp) := by
  intro k
  induction k with
  | zero =>
    intro poles zeros h
    obtain ⟨hWp, hWz, -, -, -, -⟩ := h
    have hp : poles = [] := by
      cases poles with
      | nil => rfl
      | cons a l =>
        exfalso
        rw [Wt_cons] at hWp
        split_ifs at hWp <;> omega
    have hz : zeros = [] := by
      cases zeros with
      | nil => rfl
      | cons a l =>
        exfalso
        rw [Wt_cons] at hWz
        split_ifs at hWz <;> omega
    subst hp
    subst hz
    exact ⟨[], [], rfl, rfl, rfl, by simp, by simp⟩
  | succ k ih =>
    intro poles zeros h
    obtain ⟨pp, zp, ps', zs', hstep, hinv, hsp, hsz⟩ := sosStep_inv h
    obtain ⟨psos, zsos, hloop, hlp, hlz, hap, haz⟩ := ih hinv
    refine ⟨pp :: psos, zp :: zsos, ?_, by simp [hlp], by simp [hlz], ?_, ?_⟩
    · simp only [sosLoop, hstep, hloop]
    · intro x hx
      rcases List.mem_cons.mp hx with rfl | hx'
      · exact hsp
      · exact hap x hx'
    · intro x hx
      rcases List.mem_cons.mp hx with rfl | hx'
      · exact hsz
      · exact haz x hx'

/-! ### `zpk2tf` on a well-formed section -/

theorem zpk2tf_b0 {zp : zpkQ} {b : biquad} (h : zpk2tf zp = .ok b) :
    b.b0 = zp.gain := by
  rw [zpk2tf] at h
  rcases hp0 : zp.poles.get? 0 with - | p0 <;> rw [hp0] at h <;>
    [exact Except.noConfusion h; skip]
  rcases hp1 : zp.poles.get? 1 with - | p1 <;> rw [hp1] at h <;>
    [exact Except.noConfusion h; skip]
  rcases hz0 : zp.zeros.get? 0 with - | z0 <;> rw [hz0] at h <;>
    [exact Except.noConfusion h; skip]
  rcases hz1 : zp.zeros.get? 1 with - | z1 <;> rw [hz1] at h <;>
    [exact Except.noConfusion h; skip]
  simp only at h
  split_ifs at h <;> try exact Except.noConfusion h
  have := Except.ok.inj h
  subst this
  show zp.gain * 1 - 0 * 0 = zp.gain
  ring

theorem is_real_of_im_zero {x : QC} (h : x.im = 0) : is_real x = true := by
  rw [is_real, h]
  exact decide_eq_true (by simpa using tolQ_pos)

theorem SecPair_sum_im {a b : QC} (h : SecPair (a, b)) : (-a - b).im = 0 := by
  show -a.im - b.im = 0
  rcases h with ⟨h1, h2⟩ | h2
  · simp only at h1 h2
    rw [h1, h2]
    ring
  · simp only at h2
    rw [h2]
    show -a.im - (-a.im) = 0
    ring

theorem SecPair_mul_im {a b : QC} (h : SecPair (a, b)) : (a * b).im = 0 := by
  show a.re * b.im + a.im * b.re = 0
  rcases h with ⟨h1, h2⟩ | h2
  · simp only at h1 h2
    rw [h1, h2]
    ring
  · simp only at h2
    rw [h2]
    show a.re * (-a.im) + a.im * a.re = 0
    ring

theorem mul_real_im {g : ℚ} {w : QC} (h : w.im = 0) :
    ((⟨g, 0⟩ : QC) * w).im = 0 := by
  show g * w.im + 0 * w.re = 0
  rw [h]
  ring

theorem zpk2tf_sec (g : ℚ) {pp zp : QC × QC} (hp : SecPair pp) (hz : SecPair zp) :
    ∃ b, zpk2tf ⟨[zp.1, zp.2], [pp.1, pp.2], g⟩ = .ok b := by
  have h1 : is_real ⟨1, 0⟩ = true := is_real_of_im_zero rfl
  have ha1 : is_real (-pp.1 - pp.2) = true :=
    is_real_of_im_zero (SecPair_sum_im (by cases pp; exact hp))
  have ha2 : is_real (pp.1 * pp.2) = true :=
    is_real_of_im_zero (SecPair_mul_im (by cases pp; exact hp))
  have hz1 : (-zp.1 - zp.2).im = 0 := SecPair_sum_im (by cases zp; exact hz)
  have hz2 : (zp.1 * zp.2).im = 0 := SecPair_mul_im (by cases zp; exact hz)
  have hb0 : is_real ((⟨g, 0⟩ : QC) * ⟨1, 0⟩) = true :=
    is_real_of_im_zero (mul_real_im rfl)
  have hb1 : is_real ((⟨g, 0⟩ : QC) * (-zp.1 - zp.2)) = true :=
    is_real_of_im_zero (mul_real_im hz1)
  have hb2 : is_real ((⟨g, 0⟩ : QC) * (zp.1 * zp.2)) = true :=
    is_real_of_im_zero (mul_real_im hz2)
  refine ⟨⟨((⟨g, 0⟩ : QC) * ⟨1, 0⟩).re, ((⟨g, 0⟩ : QC) * (-zp.1 - zp.2)).re,
    ((⟨g, 0⟩ : QC) * (zp.1 * zp.2)).re, (-pp.1 - pp.2).re, (pp.1 * pp.2).re⟩, ?_⟩
  unfold zpk2tf
  dsimp only
  simp only [List.get?_cons_zero, List.get?_cons_succ]
  rw [h1, ha1, ha2, hb0, hb1, hb2]
  simp

theorem emitDown_all_one {zsos psos : List (QC × QC)} {nsec : ℕ} {k : ℚ} :
    ∀ r l, emitDown zsos psos nsec k r = .ok l → r + 1 ≤ nsec →
      ∀ b ∈ l, b.b0 = 1 := by
  intro r
  induction r with
  | zero =>
    intro l h hr b hb
    rw [emitDown] at h
    have := Except.ok.inj h
    subst this
    exact absurd hb (List.not_mem_nil b)
  | succ r ih =>
    intro l h hr b hb
    rw [emitDown] at h
    rcases hz : zsos.get? r with - | zp <;> rw [hz] at h <;>
      [exact Except.noConfusion h; skip]
    rcases hp : psos.get? r with - | pp <;> rw [hp] at h <;>
      [exact Except.noConfusion h; skip]
    simp only at h
    rcases htf : zpk2tf ⟨[zp.1, zp.2], [pp.1, pp.2], if r = nsec - 1 then k else 1⟩
      with e | b0 <;> rw [htf] at h <;> [exact Except.noConfusion h; skip]
    rcases hrec : emitDown zsos psos nsec k r with e | rest <;> rw [hrec] at h <;>
      [exact Except.noConfusion h; skip]
    have := Except.ok.inj h
    subst this
    rcases List.mem_cons.mp hb with rfl | hb'
    · have hgain : (if r = nsec - 1 then k else 1) = 1 := if_neg (by omega)
      have := zpk2tf_b0 htf
      simpa [hgain] using this
    · exact ih rest hrec (by omega) b hb'

theorem emitDown_head {zsos psos : List (QC × QC)} {nsec : ℕ} {k : ℚ} {l : List biquad}
    (h : emitDown zsos psos nsec k nsec = .ok l) (hne : nsec ≠ 0) :
    ∃ b rest, l = b :: rest ∧ b.b0 = k ∧ ∀ x ∈ rest, x.b0 = 1 := by
  cases nsec with
  | zero => exact absurd rfl hne
  | succ n =>
    rw [emitDown] at h
    rcases hz : zsos.get? n with - | zp <;> rw [hz] at h <;>
      [exact Except.noConfusion h; skip]
    rcases hp : psos.get? n with - | pp <;> rw [hp] at h <;>
      [exact Except.noConfusion h; skip]
    simp only at h
    rcases htf : zpk2tf ⟨[zp.1, zp.2], [pp.1, pp.2], if n = n + 1 - 1 then k else 1⟩
      with e | b0 <;> rw [htf] at h <;> [exact Except.noConfusion h; skip]
    rcases hrec : emitDown zsos psos (n + 1) k n with e | rest <;> rw [hrec] at h <;>
      [exact Except.noConfusion h; skip]
    have := Except.ok.inj h
    subst this
    refine ⟨b0, rest, rfl, ?_, emitDown_all_one n rest hrec (by omega)⟩
    have := zpk2tf_b0 htf
    simpa using this

theorem emitDown_ok {zsos psos : List (QC × QC)} {nsec : ℕ} (k : ℚ)
    (hlp : psos.length = nsec) (hlz : zsos.length = nsec)
    (hap : ∀ pp ∈ psos, SecPair pp) (haz : ∀ zp ∈ zsos, SecPair zp) :
    ∀ r, r ≤ nsec → ∃ l, emitDown zsos psos nsec k r = .ok l ∧ l.length = r := by
  intro r
  induction r with
  | zero => exact fun _ => ⟨[], rfl, rfl⟩
  | succ r ih =>
    intro hr
    obtain ⟨l, hl, hlen⟩ := ih (by omega)
    have hzr : r < zsos.length := by omega
    have hpr : r < psos.length := by omega
    have hzg : zsos.get? r = some (zsos.get ⟨r, hzr⟩) := List.get?_eq_get hzr
    have hpg : psos.get? r = some (psos.get ⟨r, hpr⟩) := List.get?_eq_get hpr
    obtain ⟨b, hb⟩ := zpk2tf_sec (if r = nsec - 1 then k else 1)
      (hap _ (List.get_mem psos _ _)) (haz _ (List.get_mem zsos _ _))
    refine ⟨b :: l, ?_, by simp [hlen]⟩
    rw [emitDown, hzg, hpg]
    simp only
    rw [hb, hl]

/-! ### Top-level structure of `zpk2sos` -/

theorem sosAssemble_gain {nsec : ℕ} {p2 z2 : List QC} {k : ℚ} {sos : List biquad}
    (h : sosAssemble nsec p2 z2 k = .ok sos) (hne : sos ≠ []) :
    ∃ b rest, sos = b :: rest ∧ b.b0 = k ∧ ∀ x ∈ rest, x.b0 = 1 := by
  rw [sosAssemble] at h
  rcases hcp : cplxpair p2 with e | prip <;> rw [hcp] at h <;>
    [exact Except.noConfusion h; skip]
  obtain ⟨pr, pip⟩ := prip
  simp only at h
  rcases hcz : cplxpair z2 with e | zrip <;> rw [hcz] at h <;>
    [exact Except.noConfusion h; skip]
  obtain ⟨zr, zip⟩ := zrip
  simp only at h
  rcases hloop : sosLoop nsec (sortPoles (pr ++ pip)) (zr ++ zip) with e | res <;>
    rw [hloop] at h <;> [exact Except.noConfusion h; skip]
  obtain ⟨psos, zsos, pleft, zleft⟩ := res
  simp only at h
  rcases hchk : sosLeftoverCheck pleft zleft with e | u <;> rw [hchk] at h <;>
    [exact Except.noConfusion h; skip]
  have hnz : nsec ≠ 0 := by
    intro h0
    subst h0
    rw [emitDown] at h
    have := Except.ok.inj h
    exact hne this.symm
  exact emitDown_head h hnz

/-- Claim C1, amended: whenever `zpk2sos` succeeds with a nonempty list of
sections, the overall gain is applied entirely in the FIRST section of the
returned sequence (the first-emitted section, holding the worst-conditioned
pair): its leading numerator coefficient `b0` equals the input ZPK's gain,
and every later section has `b0 = 1` (unit gain). -/
theorem zpk2sos_gain_first_section {zpk : zpkQ} {sos : List biquad}
    (h : zpk2sos zpk = .ok sos) (hne : sos ≠ []) :
    ∃ b rest, sos = b :: rest ∧ b.b0 = zpk.gain ∧ ∀ x ∈ rest, x.b0 = 1 := by
  rw [zpk2sos] at h
  split_ifs at h with hlen hpar
  · exact sosAssemble_gain h hne
  · exact sosAssemble_gain h hne

theorem cplxpair_ok_iff (l : List QC) :
    (∃ w, cplxpair l = .ok w) ↔
      ¬(l.countP posIm ≠ l.countP negIm ∨
        ∃ a ∈ l, posIm a = true ∧ ∀ b ∈ l, negIm b = true →
          ¬(absSq (a - conjQ b) < tolQ ^ 2)) := by
  rcases hr : cplxpair l with e | w
  · have he := cplxpair_no_other_error l e hr
    subst he
    have hc := (cplxpair_error_iff l).mp hr
    constructor
    · rintro ⟨w, hw⟩
      exact Except.noConfusion hw
    · intro hnc
      exact absurd hc hnc
  · constructor
    · intro _ hc
      have := (cplxpair_error_iff l).mpr hc
      rw [hr] at this
      exact Except.noConfusion this
    · intro _
      exact ⟨w, rfl⟩

theorem is_real_zero : is_real ⟨0, 0⟩ = true := is_real_of_im_zero rfl

theorem posIm_zero : posIm ⟨0, 0⟩ = false := by
  simp [posIm, is_real_zero]

theorem negIm_zero : negIm ⟨0, 0⟩ = false := by
  simp [negIm, is_real_zero]

theorem cplxpair_ok_append_zeros {l : List QC} (j : ℕ)
    (h : ∃ w, cplxpair l = .ok w) :
    ∃ w, cplxpair (l ++ List.replicate j ⟨0, 0⟩) = .ok w := by
  rw [cplxpair_ok_iff] at h ⊢
  intro hc
  apply h
  have crep_pos : (List.replicate j (⟨0, 0⟩ : QC)).countP posIm = 0 :=
    List.countP_eq_zero.mpr fun a ha => by
      rw [List.eq_of_mem_replicate ha, posIm_zero]; simp
  have crep_neg : (List.replicate j (⟨0, 0⟩ : QC)).countP negIm = 0 :=
    List.countP_eq_zero.mpr fun a ha => by
      rw [List.eq_of_mem_replicate ha, negIm_zero]; simp
  rcases hc with hcnt | ⟨a, ha, hap, hbad⟩
  · left
    rwa [List.countP_append, List.countP_append, crep_pos, crep_neg,
      Nat.add_zero, Nat.add_zero] at hcnt
  · right
    have ha' : a ∈ l := by
      rcases List.mem_append.mp ha with h' | h'
      · exact h'
      · rw [List.eq_of_mem_replicate h'] at hap
        rw [posIm_zero] at hap
        exact absurd hap (by simp)
    exact ⟨a, ha', hap, fun b hb hbn => hbad b (List.mem_append_left _ hb) hbn⟩

theorem LoopInv_of_cplxpair {l r ip : List QC} {nsec : ℕ}
    (h : cplxpair l = .ok (r, ip)) (hlen : l.length = 2 * nsec) :
    Wt (r ++ ip) = 2 * nsec ∧
    2 ∣ (r ++ ip).countP (fun x => is_real x) ∧
    ∀ x ∈ r ++ ip, is_real x = true → x.im = 0 := by
  have hr_im : ∀ w ∈ r, w.im = 0 := by
    intro w hw
    obtain ⟨x, -, -, rfl⟩ := cplxpair_mem_r h w hw
    rfl
  have hip : ∀ a ∈ ip, is_real a = false := by
    intro a ha
    have := (cplxpair_mem_ip h a ha).2
    rw [posIm, Bool.and_eq_true] at this
    simpa using this.1
  have hcount := cplxpair_length h
  have hcr : r.countP (fun x => !is_real x) = 0 :=
    List.countP_eq_zero.mpr fun a ha => by
      rw [is_real_of_im_zero (hr_im a ha)]; simp
  have hcip : ip.countP (fun x => !is_real x) = ip.length :=
    List.countP_eq_length.mpr fun a ha => by rw [hip a ha]; simp
  have hcr2 : r.countP (fun x => is_real x) = r.length :=
    List.countP_eq_length.mpr fun a ha => is_real_of_im_zero (hr_im a ha)
  have hcip2 : ip.countP (fun x => is_real x) = 0 :=
    List.countP_eq_zero.mpr fun a ha => by rw [hip a ha]; simp
  refine ⟨?_, ?_, ?_⟩
  · rw [Wt, List.length_append, List.countP_append, hcr, hcip]
    omega
  · rw [List.countP_append, hcr2, hcip2]
    omega
  · intro x hx hxr
    rcases List.mem_append.mp hx with h' | h'
    · exact hr_im x h'
    · exact absurd hxr (by simp [hip x h'])

theorem LoopInv_sorted {nsec : ℕ} {poles zeros : List QC}
    (hp : Wt poles = 2 * nsec ∧ 2 ∣ poles.countP (fun x => is_real x) ∧
      ∀ x ∈ poles, is_real x = true → x.im = 0)
    (hz : Wt zeros = 2 * nsec ∧ 2 ∣ zeros.countP (fun x => is_real x) ∧
      ∀ x ∈ zeros, is_real x = true → x.im = 0) :
    LoopInv nsec (sortPoles poles) zeros := by
  have hperm := sortPoles_perm poles
  exact ⟨(Wt_perm hperm).trans hp.1, hz.1,
    hperm.countP_eq _ ▸ hp.2.1, hz.2.1,
    fun x hx => hp.2.2 x (hperm.mem_iff.mp hx),
    hz.2.2⟩

theorem sosAssemble_ok {nsec : ℕ} {p2 z2 : List QC} (k : ℚ)
    (hlp : p2.length = 2 * nsec) (hlz : z2.length = 2 * nsec)
    (hvp : ∃ w, cplxpair p2 = .ok w) (hvz : ∃ w, cplxpair z2 = .ok w) :
    ∃ sos, sosAssemble nsec p2 z2 k = .ok sos ∧ sos.length = nsec := by
  obtain ⟨⟨pr, pip⟩, hcp⟩ := hvp
  obtain ⟨⟨zr, zip⟩, hcz⟩ := hvz
  have hinv : LoopInv nsec (sortPoles (pr ++ pip)) (zr ++ zip) :=
    LoopInv_sorted
      (by
        obtain ⟨a, b, c⟩ := LoopInv_of_cplxpair hcp hlp
        exact ⟨a, b, c⟩)
      (by
        obtain ⟨a, b, c⟩ := LoopInv_of_cplxpair hcz hlz
        exact ⟨a, b, c⟩)
  obtain ⟨psos, zsos, hloop, hlps, hlzs, hap, haz⟩ := sosLoop_inv nsec hinv
  obtain ⟨sos, hemit, hlen⟩ := emitDown_ok k hlps hlzs hap haz nsec le_rfl
  refine ⟨sos, ?_, hlen⟩
  rw [sosAssemble, hcp]
  simp only
  rw [hcz]
  simp only
  rw [hloop]
  simp only
  exact hemit

/-- Claim C4, amended: for every valid digital ZPK (zeros and poles each
accepted by `cplxpair`) whose zero count exceeds its pole count by at most
one (`|poles| ≤ |zeros| ≤ |poles| + 1`), `zpk2sos` succeeds — every pole
and zero is consumed by the pairing loop with no leftovers — and returns
exactly `ceil(max(|zeros|, |poles|)/2)` biquad sections. -/
theorem zpk2sos_section_count (zpk : zpkQ)
    (h1 : zpk.poles.length ≤ zpk.zeros.length)
    (h2 : zpk.zeros.length ≤ zpk.poles.length + 1)
    (hvp : ∃ w, cplxpair zpk.poles = .ok w)
    (hvz : ∃ w, cplxpair zpk.zeros = .ok w) :
    ∃ sos, zpk2sos zpk = .ok sos ∧
      sos.length = (max zpk.zeros.length zpk.poles.length + 1) / 2 := by
  have hpad1 : padLoop zpk.zeros.length (2 ^ 64) 0 zpk.poles =
      zpk.poles ++ List.replicate (zpk.zeros.length - zpk.poles.length) ⟨0, 0⟩ := by
    rcases (by omega : zpk.zeros.length = zpk.poles.length ∨
        zpk.zeros.length = zpk.poles.length + 1) with hZ | hZ
    · rw [padLoop_no_pad _ _ _ hZ.symm]
      rw [hZ]
      simp
    · rw [padLoop_one_pad _ _ _ (by omega) (by norm_num)]
      rw [hZ]
      simp [List.replicate_succ]
  have hlen1 : (padLoop zpk.zeros.length (2 ^ 64) 0 zpk.poles).length =
      zpk.zeros.length := by
    rw [hpad1]
    simp
    omega
  have hvp1 : ∃ w, cplxpair (padLoop zpk.zeros.length (2 ^ 64) 0 zpk.poles) = .ok w := by
    rw [hpad1]
    exact cplxpair_ok_append_zeros _ hvp
  have hpad2 : padLoop (padLoop zpk.zeros.length (2 ^ 64) 0 zpk.poles).length
      (2 ^ 64) 0 zpk.zeros = zpk.zeros := padLoop_no_pad _ _ _ (by rw [hlen1])
  rw [zpk2sos, hpad2, hlen1]
  rw [if_pos rfl]
  simp only
  by_cases hodd : zpk.zeros.length % 2 = 1
  · rw [if_pos hodd, if_pos hodd]
    have hres := @sosAssemble_ok ((zpk.zeros.length + 1) / 2)
      (padLoop zpk.zeros.length (2 ^ 64) 0 zpk.poles ++ [⟨0, 0⟩])
      (zpk.zeros ++ [⟨0, 0⟩]) zpk.gain
      (by
        rw [List.length_append, hlen1]
        simp only [List.length_cons, List.length_nil]
        omega)
      (by
        rw [List.length_append]
        simp only [List.length_cons, List.length_nil]
        omega)
      (by
        rw [hpad1, List.append_assoc,
          show [(⟨0, 0⟩ : QC)] = List.replicate 1 ⟨0, 0⟩ from rfl,
          ← List.replicate_add]
        exact cplxpair_ok_append_zeros _ hvp)
      (by
        rw [show [(⟨0, 0⟩ : QC)] = List.replicate 1 ⟨0, 0⟩ from rfl]
        exact cplxpair_ok_append_zeros _ hvz)
    obtain ⟨sos, hsos, hslen⟩ := hres
    refine ⟨sos, hsos, ?_⟩
    rw [hslen, Nat.max_eq_left h1]
  · rw [if_neg hodd, if_neg hodd]
    have hres := @sosAssemble_ok ((zpk.zeros.length + 1) / 2)
      (padLoop zpk.zeros.length (2 ^ 64) 0 zpk.poles)
      zpk.zeros zpk.gain
      (by rw [hlen1]; omega) (by omega)
      hvp1 hvz
    obtain ⟨sos, hsos, hslen⟩ := hres
    refine ⟨sos, hsos, ?_⟩
    rw [hslen, Nat.max_eq_left h1]

theorem padLoop_two_more (v : List QC) (o : ℕ) (h : v.length + 2 = o) :
    padLoop o (2 ^ 64) 0 v = v ++ [⟨0, 0⟩] := by
  have hg : (o + 2 ^ 64 - v.length) % 2 ^ 64 = 2 := by omega
  have := padLoop_spec o (2 ^ 64) 0 v (by omega)
  rw [hg] at this
  simpa using this

theorem padLoop_wrap (o : ℕ) (v : List QC) (h : o + 1 = v.length) :
    padLoop o (2 ^ 64) 0 v = v ++ List.replicate (2 ^ 63) ⟨0, 0⟩ := by
  have hg : (o + 2 ^ 64 - v.length) % 2 ^ 64 = 2 ^ 64 - 1 := by omega
  have := padLoop_spec o (2 ^ 64) 0 v (by omega)
  rw [hg] at this
  rw [this]
  have hc : (2 ^ 64 - 1 - 0 + 1) / 2 = 2 ^ 63 := by omega
  rw [hc]

/-- With two more zeros than poles, the first padding loop stops after a
single push (the re-evaluated unsigned size difference has shrunk to meet
the index), the second padding loop sees `poles.size() - zeros.size()`
wrap around modulo `2^64` and pushes `2^63` zeros, and the count assertion
at line 461 then fails. -/
theorem zpk2sos_two_more_zeros (zpk : zpkQ)
    (h : zpk.zeros.length = zpk.poles.length + 2) :
    zpk2sos zpk = .error .assertFail := by
  rw [zpk2sos]
  have e1 : padLoop zpk.zeros.length (2 ^ 64) 0 zpk.poles =
      zpk.poles ++ [⟨0, 0⟩] := padLoop_two_more _ _ (by omega)
  rw [e1]
  have e2 : padLoop (zpk.poles ++ [(⟨0, 0⟩ : QC)]).length (2 ^ 64) 0 zpk.zeros =
      zpk.zeros ++ List.replicate (2 ^ 63) ⟨0, 0⟩ :=
    padLoop_wrap _ _ (by
      simp only [List.length_append, List.length_cons, List.length_nil]
      omega)
  rw [e2, if_neg]
  simp only [List.length_append, List.length_replicate, List.length_cons,
    List.length_nil]
  omega

/-- Claim C3 is refuted by the code: with zeros `[1, 2]` and no poles, the
padding loops do not equalise the counts — the first loop's condition
re-evaluates the shrinking unsigned difference `zeros.size() - poles.size()`
and stops after a single push, the second loop's unsigned difference wraps
modulo `2^64` — and the size assertion at line 461 then fails (modelled as
`.error .assertFail`) instead of the preprocessing producing equal counts. -/
theorem zpk2sos_padding_underfill :
    zpk2sos { zeros := [⟨1, 0⟩, ⟨2, 0⟩], poles := [], gain := 1 } =
      .error .assertFail :=
  zpk2sos_two_more_zeros _ (by decide)

theorem zpk2sos_eq_assemble (zpk : zpkQ) (h : zpk.poles.length = zpk.zeros.length) :
    zpk2sos zpk = sosAssemble ((zpk.zeros.length + 1) / 2)
      (if zpk.zeros.length % 2 = 1 then zpk.poles ++ [⟨0, 0⟩] else zpk.poles)
      (if zpk.zeros.length % 2 = 1 then zpk.zeros ++ [⟨0, 0⟩] else zpk.zeros)
      zpk.gain := by
  rw [zpk2sos, padLoop_no_pad _ _ _ h, padLoop_no_pad _ _ _ h.symm, if_pos h]

@[simp] theorem QC_add_re (a b : QC) : (a + b).re = a.re + b.re := rfl

@[simp] theorem QC_add_im (a b : QC) : (a + b).im = a.im + b.im := rfl

@[simp] theorem QC_sub_re (a b : QC) : (a - b).re = a.re - b.re := rfl

@[simp] theorem QC_sub_im (a b : QC) : (a - b).im = a.im - b.im := rfl

@[simp] theorem QC_neg_re (a : QC) : (-a).re = -a.re := rfl

@[simp] theorem QC_neg_im (a : QC) : (-a).im = -a.im := rfl

@[simp] theorem QC_mul_re (a b : QC) : (a * b).re = a.re * b.re - a.im * b.im := rfl

@[simp] theorem QC_mul_im (a b : QC) : (a * b).im = a.re * b.im + a.im * b.re := rfl

theorem testW1 : zpk2sos { zeros := [⟨1, 0⟩], poles := [⟨1/2, 0⟩], gain := 3 } =
    .ok [⟨3, -3, 0, -1/2, 0⟩] := by
  rw [zpk2sos_eq_assemble _ rfl]
  norm_num [sosAssemble, cplxpair, sortCplx, insertCplx, cplxLt,
    is_real, tolQ, posIm, negIm, absSq, conjQ, sortPoles, insertPole, poleLt,
    sqrtSumLt2, sqrtSumGt2, sosLoop, sosStep, selectZ1, popMin, popNearestGo,
    pop_nearest_real_complex, popFirstReal, sosLeftoverCheck, emitDown, zpk2tf,
    List.filterMap_cons, List.filterMap_nil, List.filter_cons, List.filter_nil,
    List.countP_cons, List.countP_nil, List.all_cons, List.all_nil,
    List.any_cons, List.any_nil, List.length_cons, List.length_nil]

theorem testC6a :
    cplxpair zC6 = .ok ([], [⟨-25/2^52, 1⟩, ⟨25/2^52, 1⟩]) := by
  norm_num [zC6, cplxpair, sortCplx, insertCplx, cplxLt, is_real, tolQ, posIm,
    negIm, absSq, conjQ, List.filterMap_cons, List.filterMap_nil,
    List.filter_cons, List.filter_nil, List.all_cons, List.all_nil,
    List.any_cons, List.any_nil, List.length_cons, List.length_nil]

theorem testC6b :
    ¬ ∃ z' ∈ zC6.permutations,
        ((([] : List QC) ++ ([⟨-25/2^52, 1⟩, ⟨25/2^52, 1⟩] : List QC) ++
          ([⟨-25/2^52, 1⟩, ⟨25/2^52, 1⟩] : List QC).map conjQ).zip z').all
          (fun wx => decide (absSq (wx.1 - wx.2) < tolQ ^ 2)) := by
  rintro ⟨z', hmem, hall⟩
  have hperm : List.Perm z' zC6 := List.mem_permutations.mp hmem
  have hlen : z'.length = 4 := by rw [hperm.length_eq]; rfl
  have hb2 : (⟨10, -1⟩ : QC) ∈ z' := hperm.mem_iff.mpr (by norm_num [zC6])
  obtain ⟨i, hi, hzi⟩ := List.getElem_of_mem hb2
  have hilt : i < (((([] : List QC) ++ ([⟨-25/2^52, 1⟩, ⟨25/2^52, 1⟩] : List QC) ++
      ([⟨-25/2^52, 1⟩, ⟨25/2^52, 1⟩] : List QC).map conjQ)).zip z').length := by
    rw [List.length_zip, hlen]
    simp only [List.nil_append, List.length_append, List.length_map,
      List.length_cons, List.length_nil]
    omega
  have hp := List.all_eq_true.mp hall _ (List.getElem_mem hilt)
  rw [List.getElem_zip, hzi] at hp
  have hplt := of_decide_eq_true hp
  rw [hlen] at hi
  simp only [List.nil_append, List.cons_append, List.map_cons, List.map_nil,
    List.nil_append] at hplt
  interval_cases i <;>
    simp only [List.getElem_cons_zero, List.getElem_cons_succ] at hplt <;>
    norm_num [absSq, conjQ, tolQ] at hplt

/-- Claim C6 counterexample: on the input `zC6` the pairing succeeds, yet the
reconstructed multiset (reals ++ representatives ++ conjugated representatives)
cannot be matched one-to-one with the original input within the `100·eps`
tolerance: no permutation of the input is pointwise within tolerance of the
reconstruction, because the discarded negative-imaginary elements `-i` and
`10 - i` are both matched to the same representatives during pairing and the
element `10 - i` is near no reconstructed value. -/
theorem cplxpair_roundtrip_cex :
    cplxpair zC6 = .ok ([], [⟨-25/2^52, 1⟩, ⟨25/2^52, 1⟩]) ∧
    ¬ ∃ z' ∈ zC6.permutations,
        ((([] : List QC) ++ ([⟨-25/2^52, 1⟩, ⟨25/2^52, 1⟩] : List QC) ++
          ([⟨-25/2^52, 1⟩, ⟨25/2^52, 1⟩] : List QC).map conjQ).zip z').all
          (fun wx => decide (absSq (wx.1 - wx.2) < tolQ ^ 2)) :=
  ⟨testC6a, testC6b⟩

/-! ### `analog_lowpass` -/

theorem analogPolesFrom_length (N m : ℤ) :
    (analogPolesFrom N m).length = ((N - m).toNat + 1) / 2 := by
  rw [analogPolesFrom]
  split_ifs with h
  · rw [List.length_cons, analogPolesFrom_length N (m + 2)]
    omega
  · simp only [List.length_nil]
    omega
termination_by (N - m).toNat
decreasing_by omega

theorem analogPolesFrom_get (N m : ℤ) (j : ℕ)
    (hj : j < (analogPolesFrom N m).length) :
    (analogPolesFrom N m).get? j =
      some (-Complex.exp ⟨0, Real.pi * ((m : ℝ) + 2 * j) / (2 * N)⟩) := by
  rw [analogPolesFrom] at hj ⊢
  split_ifs at hj ⊢ with h
  · cases j with
    | zero =>
      rw [List.get?_cons_zero]
      norm_num
    | succ j =>
      rw [List.get?_cons_succ]
      rw [analogPolesFrom_get N (m + 2) j (by simpa using hj)]
      congr 3
      push_cast
      ring
  · exact absurd hj (by simp)
termination_by (N - m).toNat
decreasing_by omega

theorem analogPolesFrom_abs (N m : ℤ) :
    ∀ p ∈ analogPolesFrom N m, Complex.abs p = 1 := by
  intro p hp
  rw [analogPolesFrom] at hp
  split_ifs at hp with h
  · rcases List.mem_cons.mp hp with rfl | hp'
    · rw [map_neg_eq_map, Complex.abs_exp]
      exact Real.exp_zero
    · exact analogPolesFrom_abs N (m + 2) p hp'
  · exact absurd hp (List.not_mem_nil p)
termination_by (N - m).toNat
decreasing_by omega

/-! ### `bilinear_transform` -/

theorem foldl_mul_eq (f : ℂ → ℂ) :
    ∀ (l : List ℂ) (c : ℂ),
      l.foldl (fun acc x => acc * f x) c = c * (l.map f).prod
  | [], c => by simp
  | a :: l, c => by
    rw [List.foldl_cons, foldl_mul_eq f l (c * f a), List.map_cons,
      List.prod_cons, mul_assoc]

theorem one_one_ne_zero : (⟨1, 1⟩ : ℂ) ≠ 0 := by
  simp [Complex.ext_iff]

/-- Claim C8: `bilinear_transform` maps each zero and each pole `x` to
`(2·fs + x)/(2·fs - x)` in order, appends `|poles| - |zeros|` additional
zeros equal to `-1`, and multiplies the gain by
`Re(Π(2·fs - zero) / Π(2·fs - pole))` over the input zeros and poles. -/
theorem bilinear_transform_spec (zpk : zpkC) (fs : ℝ) :
    (bilinear_transform zpk fs).zeros =
      zpk.zeros.map (fun x => (2 * (fs : ℂ) + x) / (2 * (fs : ℂ) - x)) ++
        List.replicate (zpk.poles.length - zpk.zeros.length) (-1) ∧
    (bilinear_transform zpk fs).poles =
      zpk.poles.map (fun x => (2 * (fs : ℂ) + x) / (2 * (fs : ℂ) - x)) ∧
    (bilinear_transform zpk fs).gain = zpk.gain *
      (((zpk.zeros.map fun x => 2 * (fs : ℂ) - x).prod) /
        ((zpk.poles.map fun x => 2 * (fs : ℂ) - x).prod)).re := by
  refine ⟨?_, rfl, ?_⟩
  · show _ ++ List.replicate ((zpk.poles.length : ℤ) - zpk.zeros.length).toNat
      ((-1 : ℂ)) = _
    rw [show ((zpk.poles.length : ℤ) - zpk.zeros.length).toNat =
      zpk.poles.length - zpk.zeros.length from by omega]
  · show zpk.gain * ((zpk.zeros.foldl (fun acc z => acc * (2 * (fs : ℂ) - z)) ⟨1, 1⟩) /
        (zpk.poles.foldl (fun acc p => acc * (2 * (fs : ℂ) - p)) ⟨1, 1⟩)).re = _
    rw [foldl_mul_eq, foldl_mul_eq, mul_div_mul_left _ _ one_one_ne_zero]

/-- Claim C7: for every integer order `N ≥ 1`, `analog_lowpass N` returns a
ZPK with no zeros, gain `1`, exactly `N` poles, the `j`-th pole equal to
`-exp(i·π·(-N + 1 + 2j)/(2N))` (that is, poles at `-exp(i·π·m/(2N))` for
`m = -N+1, -N+3, …, N-1`), and every pole of magnitude exactly `1`. -/
theorem analog_lowpass_spec (N : ℤ) (hN : 1 ≤ N) :
    (analog_lowpass N).zeros = [] ∧
    (analog_lowpass N).gain = 1 ∧
    (analog_lowpass N).poles.length = N.toNat ∧
    (∀ j : ℕ, j < N.toNat → (analog_lowpass N).poles.get? j =
      some (-Complex.exp ⟨0, Real.pi * (-(N : ℝ) + 1 + 2 * j) / (2 * N)⟩)) ∧
    ∀ p ∈ (analog_lowpass N).poles, Complex.abs p = 1 := by
  refine ⟨rfl, rfl, ?_, ?_, ?_⟩
  · show (analogPolesFrom N (-N + 1)).length = N.toNat
    rw [analogPolesFrom_length]
    omega
  · intro j hj
    have hlen : (analogPolesFrom N (-N + 1)).length = N.toNat := by
      rw [analogPolesFrom_length]
      omega
    have hget := analogPolesFrom_get N (-N + 1) j (by rw [hlen]; omega)
    show (analogPolesFrom N (-N + 1)).get? j = _
    rw [hget]
    congr 3
    push_cast
    ring
  · exact analogPolesFrom_abs N (-N + 1)

theorem analog_lowpass_spec_w :
    (analog_lowpass 3).poles.length = (3 : ℤ).toNat ∧
    (analog_lowpass 3).poles.get? 1 =
      some (-Complex.exp ⟨0, Real.pi * (-(((3 : ℤ) : ℝ)) + 1 + 2 * ((1 : ℕ) : ℝ)) /
        (2 * ((3 : ℤ) : ℝ))⟩) := by
  have h := analog_lowpass_spec 3 (by norm_num)
  exact ⟨h.2.2.1, h.2.2.2.1 1 (by norm_num)⟩

/-! ### `cplxpair` spec theorems and concrete evaluations -/

theorem testC5 :
    cplxpair ([⟨2, 0⟩, ⟨0, 3⟩, ⟨0, -3⟩] : List QC) = .ok ([⟨2, 0⟩], [⟨0, 3⟩]) := by
  norm_num [cplxpair, sortCplx, insertCplx, cplxLt, is_real, tolQ, posIm,
    negIm, absSq, conjQ, abs_neg, abs_of_nonneg, List.filterMap_cons, List.filterMap_nil,
    List.filter_cons, List.filter_nil, List.all_cons, List.all_nil,
    List.any_cons, List.any_nil, List.length_cons, List.length_nil]

theorem testC4z :
    cplxpair ([⟨0, 1⟩, ⟨0, -1⟩] : List QC) = .ok ([], [⟨0, 1⟩]) := by
  norm_num [cplxpair, sortCplx, insertCplx, cplxLt, is_real, tolQ, posIm,
    negIm, absSq, conjQ, abs_neg, abs_of_nonneg, List.filterMap_cons, List.filterMap_nil,
    List.filter_cons, List.filter_nil, List.all_cons, List.all_nil,
    List.any_cons, List.any_nil, List.length_cons, List.length_nil]

theorem testC4p :
    cplxpair ([⟨0, 1/2⟩, ⟨0, -1/2⟩] : List QC) = .ok ([], [⟨0, 1/2⟩]) := by
  norm_num [cplxpair, sortCplx, insertCplx, cplxLt, is_real, tolQ, posIm,
    negIm, absSq, conjQ, abs_neg, abs_of_nonneg, List.filterMap_cons, List.filterMap_nil,
    List.filter_cons, List.filter_nil, List.all_cons, List.all_nil,
    List.any_cons, List.any_nil, List.length_cons, List.length_nil]

theorem testC4r :
    cplxpair ([⟨0, 0⟩, ⟨0, 0⟩] : List QC) = .ok ([⟨0, 0⟩, ⟨0, 0⟩], []) := by
  norm_num [cplxpair, sortCplx, insertCplx, cplxLt, is_real, tolQ, posIm,
    negIm, absSq, conjQ, abs_neg, abs_of_nonneg, List.filterMap_cons, List.filterMap_nil,
    List.filter_cons, List.filter_nil, List.all_cons, List.all_nil,
    List.any_cons, List.any_nil, List.length_cons, List.length_nil]

/-- Claim C5: `cplxpair` fails with the invalid-input error if and only if
the count of elements with imaginary part at least the tolerance differs
from the count of elements with imaginary part at most its negation, or
some positive-imaginary element `a` has no negative-imaginary element `b`
with `|a - conj b| < tol` (tolerance `100` times the double machine
epsilon); the invalid-input error is the only error it produces; and on
success it returns the real-classified elements (imaginary parts zeroed)
and the positive-imaginary representatives, as permutations respecting the
input's classification. -/
theorem cplxpair_fail_iff_spec (z : List QC) :
    (cplxpair z = .error .invalidArg ↔
      (z.countP posIm ≠ z.countP negIm ∨
        ∃ a ∈ z, posIm a = true ∧ ∀ b ∈ z, negIm b = true →
          ¬(absSq (a - conjQ b) < tolQ ^ 2))) ∧
    (∀ e, cplxpair z = .error e → e = .invalidArg) ∧
    (∀ r ip, cplxpair z = .ok (r, ip) →
      List.Perm r ((z.filter is_real).map fun x => (⟨x.re, 0⟩ : QC)) ∧
      List.Perm ip (z.filter posIm)) := by
  refine ⟨cplxpair_error_iff z, cplxpair_no_other_error z, ?_⟩
  intro r ip h
  obtain ⟨hr, hip, -, -⟩ := cplxpair_ok_inv h
  subst hr
  subst hip
  exact ⟨((sortCplx_perm z).filter is_real).map _, (sortCplx_perm z).filter posIm⟩

theorem cplxpair_fail_iff_spec_w :
    List.Perm [⟨(2 : ℚ), 0⟩]
      ((([⟨2, 0⟩, ⟨0, 3⟩, ⟨0, -3⟩] : List QC).filter is_real).map
        fun x => (⟨x.re, 0⟩ : QC)) ∧
    List.Perm [⟨(0 : ℚ), 3⟩] (([⟨2, 0⟩, ⟨0, 3⟩, ⟨0, -3⟩] : List QC).filter posIm) :=
  (cplxpair_fail_iff_spec [⟨2, 0⟩, ⟨0, 3⟩, ⟨0, -3⟩]).2.2 [⟨2, 0⟩] [⟨0, 3⟩] testC5

/-- Claim C6, amended: for every input on which `cplxpair` succeeds,
recombining its output — returned reals, plus positive-imaginary
representatives, plus conjugates of those representatives — yields exactly
as many elements as the input, and every reconstructed element is within
the `100·eps` tolerance of SOME original element (coverage; the
element-to-element matching need not be one-to-one). -/
theorem cplxpair_roundtrip_coverage {z r ip : List QC} (h : cplxpair z = .ok (r, ip)) :
    (r ++ ip ++ ip.map conjQ).length = z.length ∧
    ∀ w ∈ r ++ ip ++ ip.map conjQ, ∃ x ∈ z, absSq (w - x) < tolQ ^ 2 := by
  constructor
  · have := cplxpair_length h
    simp only [List.length_append, List.length_map]
    omega
  · intro w hw
    rcases List.mem_append.mp hw with hw' | hwc
    · rcases List.mem_append.mp hw' with hwr | hwip
      · obtain ⟨x, hx, hxr, rfl⟩ := cplxpair_mem_r h w hwr
        refine ⟨x, hx, ?_⟩
        have him : |x.im| < tolQ := of_decide_eq_true hxr
        have habs : absSq (⟨x.re, 0⟩ - x) = x.im ^ 2 := by
          show (x.re - x.re) ^ 2 + (0 - x.im) ^ 2 = x.im ^ 2
          ring
        rw [habs, ← sq_abs]
        exact pow_lt_pow_left him (abs_nonneg _) (by norm_num)
      · refine ⟨w, (cplxpair_mem_ip h w hwip).1, ?_⟩
        have habs : absSq (w - w) = 0 := by
          show (w.re - w.re) ^ 2 + (w.im - w.im) ^ 2 = 0
          ring
        rw [habs]
        exact pow_pos tolQ_pos 2
    · obtain ⟨a, ha, rfl⟩ := List.mem_map.mp hwc
      obtain ⟨b, hb, -, hclose⟩ := cplxpair_ip_matched h a ha
      refine ⟨b, hb, ?_⟩
      have habs : absSq (conjQ a - b) = absSq (a - conjQ b) := by
        show (a.re - b.re) ^ 2 + (-a.im - b.im) ^ 2 =
          (a.re - b.re) ^ 2 + (a.im - -b.im) ^ 2
        ring
      rw [habs]
      exact hclose

theorem cplxpair_roundtrip_coverage_w :
    ((([⟨2, 0⟩] : List QC) ++ ([⟨0, 3⟩] : List QC) ++
        ([⟨0, 3⟩] : List QC).map conjQ)).length =
      ([⟨2, 0⟩, ⟨0, 3⟩, ⟨0, -3⟩] : List QC).length ∧
    ∀ w ∈ ([⟨2, 0⟩] : List QC) ++ ([⟨0, 3⟩] : List QC) ++
        ([⟨0, 3⟩] : List QC).map conjQ,
      ∃ x ∈ ([⟨2, 0⟩, ⟨0, 3⟩, ⟨0, -3⟩] : List QC), absSq (w - x) < tolQ ^ 2 :=
  cplxpair_roundtrip_coverage testC5

/-! ### Leftover check, gain placement, pairing-branch, counts -/

/-- Claim C9, amended: if any pole or zero remains unconsumed after the
pairing loop, `zpk2sos`'s post-loop check fails via the C `assert` at line
578 — an assertion failure that aborts the process in debug builds (and is
compiled away under `NDEBUG`) — not via a catchable `std::logic_error`. -/
theorem sosLeftoverCheck_assert (poles zeros : List QC)
    (h : poles ≠ [] ∨ zeros ≠ []) :
    sosLeftoverCheck poles zeros = .error .assertFail := by
  rw [sosLeftoverCheck, if_neg]
  rintro ⟨hp, hz⟩
  rcases h with h | h
  · exact h (List.length_eq_zero.mp hp)
  · exact h (List.length_eq_zero.mp hz)

theorem sosLeftoverCheck_assert_w :
    sosLeftoverCheck [⟨1, 0⟩] [] = .error .assertFail :=
  sosLeftoverCheck_assert [⟨1, 0⟩] [] (Or.inl (List.cons_ne_nil _ _))

/-- Claim C9 counterexample: at a leftover state (one unconsumed pole), the
post-loop check produces the assertion-failure outcome, which is distinct
from the catchable logic-error outcome the claim promises. -/
theorem sosLeftoverCheck_abort_cex :
    sosLeftoverCheck [⟨0, 0⟩] [] = .error .assertFail ∧
    SosErr.assertFail ≠ SosErr.logicErr := by
  constructor
  · rfl
  · intro h
    exact SosErr.noConfusion h

/-- Claim C1 counterexample: on a concrete all-real ZPK with gain 2,
`zpk2sos` succeeds and the LAST returned section has `b0 = 1`, not the
input gain 2 (the gain sits in the first returned section), refuting the
claim that the gain is applied entirely in the last section. -/
theorem zpk2sos_gain_placement_cex :
    zpk2sos { zeros := [⟨2, 0⟩, ⟨3, 0⟩, ⟨4, 0⟩, ⟨5, 0⟩],
              poles := [⟨1/2, 0⟩, ⟨1/3, 0⟩, ⟨1/4, 0⟩, ⟨1/5, 0⟩], gain := 2 } =
      .ok [⟨2, -18, 40, -9/20, 1/20⟩, ⟨1, -5, 6, -5/6, 1/6⟩] ∧
    ([⟨2, -18, 40, -9/20, 1/20⟩, ⟨1, -5, 6, -5/6, 1/6⟩] : List biquad).getLast? =
      some ⟨1, -5, 6, -5/6, 1/6⟩ ∧
    (⟨1, -5, 6, -5/6, 1/6⟩ : biquad).b0 = 1 ∧ (1 : ℚ) ≠ 2 := by
  refine ⟨?_, rfl, rfl, by norm_num⟩
  rw [zpk2sos_eq_assemble _ rfl]
  norm_num [sosAssemble, cplxpair, sortCplx, insertCplx, cplxLt, is_real, tolQ, posIm, negIm,
    absSq, conjQ, abs_neg, abs_of_nonneg, sortPoles, insertPole, poleLt, sqrtSumLt2,
    sqrtSumGt2, sosLoop, sosStep,
    selectZ1, popMin, popNearestGo, pop_nearest_real_complex, popFirstReal, sosLeftoverCheck,
    emitDown, zpk2tf, List.filterMap_cons, List.filterMap_nil, List.filter_cons, List.filter_nil,
    List.countP_cons, List.countP_nil, List.all_cons, List.all_nil, List.any_cons, List.any_nil,
    List.length_cons, List.length_nil]

theorem zpk2sos_gain_first_section_w :
    ∃ b rest, ([⟨3, -3, 0, -1/2, 0⟩] : List biquad) = b :: rest ∧
      b.b0 = ({ zeros := [⟨1, 0⟩], poles := [⟨1/2, 0⟩], gain := 3 } : zpkQ).gain ∧
      ∀ x ∈ rest, x.b0 = 1 :=
  zpk2sos_gain_first_section testW1 (List.cons_ne_nil _ _)

/-- Claim C2 is refuted by the code: in the pairing-loop state where the
front pole `p1 = i/2` is complex, the remaining poles are `[3/5 + 4i/5]`
(no real pole), and the remaining zeros are `[1/2, 5 + 5i]` (exactly one
real zero), the zero-selection step pairs `p1` with the lone REAL zero
`1/2` — because line 512 tests the count of remaining real POLES instead
of real zeros — rather than skipping it for the nearest complex zero as
the claim (and the code's own comment) requires. -/
theorem selectZ1_pairs_lone_real_zero :
    is_real (⟨0, 1/2⟩ : QC) = false ∧
    ([⟨1/2, 0⟩, ⟨5, 5⟩] : List QC).countP (fun x => is_real x) = 1 ∧
    selectZ1 ⟨0, 1/2⟩ [⟨3/5, 4/5⟩] [⟨1/2, 0⟩, ⟨5, 5⟩] = .ok (⟨1/2, 0⟩, [⟨5, 5⟩]) ∧
    is_real (⟨1/2, 0⟩ : QC) = true := by
  refine ⟨?_, ?_, ?_, ?_⟩ <;>
    norm_num [selectZ1, popMin, popNearestGo, pop_nearest_real_complex, popFirstReal,
      is_real, tolQ, absSq, abs_neg, abs_of_nonneg, List.countP_cons, List.countP_nil,
      List.length_cons, List.length_nil]

/-- Claim C4 counterexample: zeros `[0, 0]` with no poles is a valid digital
ZPK (both lists pass `cplxpair`), yet `zpk2sos` does not return
`ceil(max(2,0)/2) = 1` sections: the broken padding preprocessing leaves the
counts unequal and the run fails with the assertion error. -/
theorem zpk2sos_consume_cex :
    cplxpair ([⟨0, 0⟩, ⟨0, 0⟩] : List QC) = .ok ([⟨0, 0⟩, ⟨0, 0⟩], []) ∧
    cplxpair ([] : List QC) = .ok ([], []) ∧
    zpk2sos { zeros := [⟨0, 0⟩, ⟨0, 0⟩], poles := [], gain := 1 } =
      .error .assertFail :=
  ⟨testC4r, rfl, zpk2sos_two_more_zeros _ (by simp)⟩

theorem zpk2sos_section_count_w :
    ∃ sos, zpk2sos { zeros := [⟨0, 1⟩, ⟨0, -1⟩],
                     poles := [⟨0, 1/2⟩, ⟨0, -1/2⟩], gain := 1 } = .ok sos ∧
      sos.length = (max ({ zeros := [⟨0, 1⟩, ⟨0, -1⟩],
                           poles := [⟨0, 1/2⟩, ⟨0, -1/2⟩],
                           gain := 1 } : zpkQ).zeros.length
        ({ zeros := [⟨0, 1⟩, ⟨0, -1⟩],
           poles := [⟨0, 1/2⟩, ⟨0, -1/2⟩], gain := 1 } : zpkQ).poles.length + 1) / 2 :=
  zpk2sos_section_count _ (by simp) (by simp) ⟨([], [⟨0, 1/2⟩]), testC4p⟩ ⟨([], [⟨0, 1⟩]), testC4z⟩

/-- Claim C10: `zpk2sos` applied to a ZPK with no zeros and no poles
returns the empty section list and does not fail, for every gain; in
particular a nonzero gain is discarded, since no section exists to carry
it. -/
theorem zpk2sos_empty_input :
    ∀ g : ℚ, zpk2sos { zeros := [], poles := [], gain := g } = .ok [] := by
  intro g
  rw [zpk2sos_eq_assemble _ rfl]
  norm_num [sosAssemble, cplxpair, sortCplx, sortPoles, posIm, negIm, is_real,
    tolQ, sosLoop, sosLeftoverCheck, emitDown, List.filter_nil,
    List.filterMap_nil, List.all_nil, List.length_nil]
